import Mathlib

/-!
# A verification development for `workers/pool.go`

The pool is a Go program made of one caller goroutine and `count` worker
goroutines that communicate over two buffered channels.  It is embedded as an
interleaving transition system:

* `Chan` is a buffered Go channel (buffer, capacity, closed flag) with the
  language's `send`, `recv` and `close` semantics;
* `Worker` is the frame of one `worker` goroutine, `State` the whole program;
* `step a s` runs one atomic action of actor `a` (the caller or one worker);
  it is `none` when that actor is blocked, finished, or the program panicked;
* `run sched s` runs a whole schedule; a state is reachable when some schedule
  produces it.

Every step touches at most one channel, so every interleaving of channel
operations of the real program is a schedule of the model.  Handlers and
context generators are modelled as pure functions.  The trace `State.events`
is ghost state recording what happened, in order.
-/

namespace Workers

/-! ## Go channels -/

/-- Go runtime panics the pool code can raise. -/
inductive Panic
  | makechanSizeOutOfRange
  | sendOnClosedChannel
  | closeOfClosedChannel
  deriving DecidableEq, Repr

/-- A buffered Go channel: queued values (head is the oldest), capacity and
closed flag. A channel of capacity 0 is unbuffered and its sends need a
waiting receiver; the only channel that can have capacity 0 here is
`acknowledge` of a pool with `count = 0`, for which no worker is spawned and
nothing is ever sent, so that hand-over is not modelled. -/
structure Chan (α : Type) where
  buf : List α
  cap : Nat
  closed : Bool
  deriving DecidableEq, Repr

/-- The builtin `make(chan α, size)`: the runtime panics with "size out of
range" on a negative size and on a size whose buffer it cannot allocate.
`limit` is the largest size it accepts for the element type on the platform
at hand, a constant of the runtime that is not part of the repository. -/
def makeChan (α : Type) (limit : Nat) (size : Int) : Except Panic (Chan α) :=
  match size with
  | Int.negSucc _ => Except.error Panic.makechanSizeOutOfRange
  | Int.ofNat n =>
    if limit < n then Except.error Panic.makechanSizeOutOfRange
    else Except.ok { buf := [], cap := n, closed := false }

/-- Outcome of `c <- v`. -/
inductive SendResult (α : Type)
  | sent (c : Chan α)
  | blocked
  | panicked
  deriving DecidableEq, Repr

/-- The statement `c <- v`: panics on a closed channel, appends at the tail
when there is room, blocks otherwise. -/
def Chan.send {α : Type} (c : Chan α) (v : α) : SendResult α :=
  if c.closed then SendResult.panicked
  else if c.buf.length < c.cap then SendResult.sent { c with buf := c.buf ++ [v] }
  else SendResult.blocked

/-- Outcome of `v, ok := <-c`. -/
inductive RecvResult (α : Type)
  | value (v : α) (c : Chan α)
  | closed
  | blocked
  deriving DecidableEq, Repr

/-- The expression `v, ok := <-c`: takes the oldest buffered value; on an
empty buffer it yields `ok = false` when the channel is closed and blocks
otherwise. -/
def Chan.recv {α : Type} (c : Chan α) : RecvResult α :=
  match c.buf with
  | v :: rest => RecvResult.value v { c with buf := rest }
  | [] => if c.closed then RecvResult.closed else RecvResult.blocked

/-- The builtin `close(c)`: `none` stands for the panic on a closed channel. -/
def Chan.close {α : Type} (c : Chan α) : Option (Chan α) :=
  if c.closed then none else some { c with closed := true }

/-! ## The pool -/

/-- The struct `Pool`. `count` is a Go `int`; the loops over it only compare
a counter with it and increment the counter while it is smaller, so no
arithmetic overflows and `Int` stands for it. -/
structure Pool (τ : Type) where
  count : Int
  tasks : Chan τ
  acknowledge : Chan Bool
  deriving DecidableEq, Repr

/-- The largest buffer sizes `make` accepts on the platform at hand, for
`chan interface{}` and for `chan bool`. -/
structure Limits where
  tasks : Nat
  acks : Nat
  deriving DecidableEq, Repr

/-- The constructor `New(numWorkers)`, on a platform with the limits `lim`:
the two `make` calls in the order of the struct literal, and no check of its
own. On a real platform both limits are below the largest `int`, so that an
`Int` that is no Go `int` is a size out of range like any other. -/
def New (τ : Type) (lim : Limits) (numWorkers : Int) : Except Panic (Pool τ) :=
  match makeChan τ lim.tasks 10000 with
  | Except.error e => Except.error e
  | Except.ok tasks =>
    match makeChan Bool lim.acks numWorkers with
    | Except.error e => Except.error e
    | Except.ok acknowledge =>
      Except.ok { count := numWorkers, tasks := tasks, acknowledge := acknowledge }

/-- The type `TaskHandler`; a `nil` context is `none`. -/
abbrev TaskHandler (κ τ : Type) := Option κ → τ → Bool

/-- The type `TaskContextGenerator`. -/
abbrev TaskContextGenerator (κ : Type) := Int → Option κ

/-! ## Workers -/

/-- Where a `worker` goroutine stands: at the receive of its loop, holding a
received task before the handler call, at one of the two sends on
`acknowledge`, or returned. -/
inductive WPc (τ : Type)
  | recv
  | handle (task : τ)
  | ack
  | done
  deriving DecidableEq, Repr

/-- The frame of one `worker` goroutine: its arguments, the local `success`
and the program counter. -/
structure Worker (κ τ : Type) where
  id : Int
  context : Option κ
  handler : TaskHandler κ τ
  success : Bool
  pc : WPc τ

/-- What a worker does that others can observe. -/
inductive WEvent (κ τ : Type)
  | invoked (context : Option κ) (task : τ) (result : Bool)
  | acknowledged (success : Bool)
  deriving DecidableEq, Repr

/-- The value of an acknowledgment event. -/
@[simp] def WEvent.ackValue {κ τ : Type} : WEvent κ τ → Option Bool
  | WEvent.acknowledged b => some b
  | _ => none

/-- Entry of `worker`: `success := true`, then the loop. -/
def Worker.spawn {κ τ : Type} (id : Int) (context : Option κ) (handler : TaskHandler κ τ) :
    Worker κ τ :=
  { id := id, context := context, handler := handler, success := true, pc := WPc.recv }

/-- The outcome of `task, ok := <-tasks` for the worker: with `ok` it holds the
task, without it goes to the send of the `!ok` branch. -/
def Worker.onRecv {κ τ : Type} (w : Worker κ τ) (r : Option τ) : Worker κ τ :=
  match r with
  | some task => { w with pc := WPc.handle task }
  | none => { w with pc := WPc.ack }

/-- The statements `success = success && handler(context, task)` and
`if !success`: the handler is called only when `success` holds (short
circuit); a false result leads to the send of the bail-out branch, a true one
back to the receive. -/
def Worker.onTask {κ τ : Type} (w : Worker κ τ) (task : τ) : Worker κ τ × List (WEvent κ τ) :=
  let r := if w.success then w.handler w.context task else false
  let evs := if w.success then [WEvent.invoked w.context task r] else []
  ({ w with success := r, pc := if !r then WPc.ack else WPc.recv }, evs)

/-- The statement `acknowledge <- success` once it completes, followed by
`break`: the worker returns. -/
def Worker.onAck {κ τ : Type} (w : Worker κ τ) : Worker κ τ × List (WEvent κ τ) :=
  ({ w with pc := WPc.done }, [WEvent.acknowledged w.success])

/-- One uninterrupted run of the `worker` loop from frame `w` when the queue
delivers `queue` in order and then reports closed, and every send on
`acknowledge` completes: the observable events, in order. -/
def Worker.run {κ τ : Type} (w : Worker κ τ) : List τ → List (WEvent κ τ)
  | [] => (Worker.onAck (w.onRecv none)).2
  | task :: rest =>
    let r := (w.onRecv (some task)).onTask task
    match r.1.pc with
    | WPc.recv => r.2 ++ Worker.run r.1 rest
    | _ => r.2 ++ (Worker.onAck r.1).2

/-- The function `worker(id, tasks, acknowledge, context, handler)` run
alone against a queue that delivers `queue` and is then closed. -/
def worker {κ τ : Type} (id : Int) (queue : List τ) (context : Option κ)
    (handler : TaskHandler κ τ) : List (WEvent κ τ) :=
  (Worker.spawn id context handler).run queue

/-- Reading of the worker loop used to state what `worker` does: the tasks a
worker handles out of a queue are all those up to and including the first one
the handler rejects. -/
def handledTasks {κ τ : Type} (handler : TaskHandler κ τ) (context : Option κ) : List τ → List τ
  | [] => []
  | task :: rest =>
    if handler context task then task :: handledTasks handler context rest else [task]

/-! ## The whole program -/

/-- The calls a caller makes on a pool. -/
inductive Call (κ τ : Type)
  | start (handler : TaskHandler κ τ)
  | startWithContext (handler : TaskHandler κ τ) (generator : TaskContextGenerator κ)
  | submit (task : τ)
  | waitForCompletion

/-- Where the caller stands: between calls, in the loop of `Start` or
`StartWithContext` with loop variable `i`, or in the loop of
`WaitForCompletion` with loop variable `i`. -/
inductive CPc (κ τ : Type)
  | idle
  | spawning (i : Int) (handler : TaskHandler κ τ) (generator : Option (TaskContextGenerator κ))
  | collecting (i : Int)

/-- The trace of the program. `w` is the position of a worker goroutine in
spawn order, `id` the first argument it was given. -/
inductive Event (κ τ : Type)
  | generated (id : Int) (context : Option κ)
  | spawned (w : Nat) (id : Int) (context : Option κ)
  | submitted (task : τ)
  | received (w : Nat) (task : τ)
  | worker (w : Nat) (id : Int) (e : WEvent κ τ)
  | closed
  | collected (success : Bool)
  | returned
  deriving DecidableEq, Repr

/-- The state of the program: the pool, the worker goroutines in spawn order,
the calls the caller still has to make (the head is the current one), the
caller's position, the trace and the panic that stopped the program, if any. -/
structure State (κ τ : Type) where
  pool : Pool τ
  workers : List (Worker κ τ)
  script : List (Call κ τ)
  pc : CPc κ τ
  events : List (Event κ τ)
  panic : Option Panic

/-- The program right after `New` returned `pool`, about to make the calls of
`script`. -/
def State.init {κ τ : Type} (pool : Pool τ) (script : List (Call κ τ)) : State κ τ :=
  { pool := pool, workers := [], script := script, pc := CPc.idle, events := [], panic := none }

/-- The context argument of the `go worker(...)` statement: `nil` in
`Start`, `generator(i)` in `StartWithContext`. -/
def contextFor {κ : Type} (generator : Option (TaskContextGenerator κ)) (i : Int) : Option κ :=
  match generator with
  | some g => g i
  | none => none

/-- The call of the generator made while evaluating the arguments of the
`go worker(...)` statement, as trace events: one call in `StartWithContext`,
none in `Start`. -/
def generatedEvents {κ τ : Type} (generator : Option (TaskContextGenerator κ)) (i : Int) :
    List (Event κ τ) :=
  match generator with
  | some g => [Event.generated i (g i)]
  | none => []

/-- One iteration of the loop of `Start` (no generator, `nil` context) or
`StartWithContext`: while `i < pool.count` the context is computed on the
caller, then the worker is spawned; otherwise the call returns. -/
def startLoop {κ τ : Type} (s : State κ τ) (i : Int) (handler : TaskHandler κ τ)
    (generator : Option (TaskContextGenerator κ)) (rest : List (Call κ τ)) : State κ τ :=
  if i < s.pool.count then
    { s with
      workers := s.workers ++ [Worker.spawn i (contextFor generator i) handler],
      pc := CPc.spawning (i + 1) handler generator,
      events := s.events ++ generatedEvents generator i
        ++ [Event.spawned s.workers.length i (contextFor generator i)] }
  else { s with script := rest, pc := CPc.idle }

/-- The method `Submit(task)`: the send `pool.tasks <- task`. -/
def Submit {κ τ : Type} (s : State κ τ) (task : τ) (rest : List (Call κ τ)) :
    Option (State κ τ) :=
  match s.pool.tasks.send task with
  | SendResult.sent c =>
    some { s with
      pool := { s.pool with tasks := c },
      script := rest,
      events := s.events ++ [Event.submitted task] }
  | SendResult.blocked => none
  | SendResult.panicked => some { s with panic := some Panic.sendOnClosedChannel }

/-- First statement of `WaitForCompletion`: `close(pool.tasks)`. -/
def waitClose {κ τ : Type} (s : State κ τ) : State κ τ :=
  match s.pool.tasks.close with
  | some c =>
    { s with
      pool := { s.pool with tasks := c },
      pc := CPc.collecting 0,
      events := s.events ++ [Event.closed] }
  | none => { s with panic := some Panic.closeOfClosedChannel }

/-- One iteration of the loop of `WaitForCompletion`: while `i < pool.count`
it receives one acknowledgment (blocking on an empty channel); otherwise the
call returns. -/
def waitLoop {κ τ : Type} (s : State κ τ) (i : Int) (rest : List (Call κ τ)) :
    Option (State κ τ) :=
  if i < s.pool.count then
    match s.pool.acknowledge.recv with
    | RecvResult.value b c =>
      some { s with
        pool := { s.pool with acknowledge := c },
        pc := CPc.collecting (i + 1),
        events := s.events ++ [Event.collected b] }
    | RecvResult.closed => some { s with pc := CPc.collecting (i + 1) }
    | RecvResult.blocked => none
  else some { s with script := rest, pc := CPc.idle, events := s.events ++ [Event.returned] }

/-- One atomic action of the caller. -/
def callerStep {κ τ : Type} (s : State κ τ) : Option (State κ τ) :=
  match s.script with
  | [] => none
  | call :: rest =>
    match s.pc with
    | CPc.idle =>
      match call with
      | Call.start handler => some { s with pc := CPc.spawning 0 handler none }
      | Call.startWithContext handler generator =>
        some { s with pc := CPc.spawning 0 handler (some generator) }
      | Call.submit task => Submit s task rest
      | Call.waitForCompletion => some (waitClose s)
    | CPc.spawning i handler generator => some (startLoop s i handler generator rest)
    | CPc.collecting i => waitLoop s i rest

/-- One atomic action of the worker at position `k`, whose frame is `w`. -/
def workerStep {κ τ : Type} (s : State κ τ) (k : Nat) (w : Worker κ τ) : Option (State κ τ) :=
  match w.pc with
  | WPc.recv =>
    match s.pool.tasks.recv with
    | RecvResult.value task c =>
      some { s with
        pool := { s.pool with tasks := c },
        workers := s.workers.set k (w.onRecv (some task)),
        events := s.events ++ [Event.received k task] }
    | RecvResult.closed => some { s with workers := s.workers.set k (w.onRecv none) }
    | RecvResult.blocked => none
  | WPc.handle task =>
    some { s with
      workers := s.workers.set k (w.onTask task).1,
      events := s.events ++ (w.onTask task).2.map (Event.worker k w.id) }
  | WPc.ack =>
    match s.pool.acknowledge.send w.success with
    | SendResult.sent c =>
      some { s with
        pool := { s.pool with acknowledge := c },
        workers := s.workers.set k (Worker.onAck w).1,
        events := s.events ++ (Worker.onAck w).2.map (Event.worker k w.id) }
    | SendResult.blocked => none
    | SendResult.panicked => some { s with panic := some Panic.sendOnClosedChannel }
  | WPc.done => none

/-- The goroutines of the program. -/
inductive Actor
  | caller
  | worker (k : Nat)
  deriving DecidableEq, Repr

/-- One atomic action of actor `a`; `none` when `a` cannot move. A panic stops
every goroutine. -/
def step {κ τ : Type} (a : Actor) (s : State κ τ) : Option (State κ τ) :=
  match s.panic with
  | some _ => none
  | none =>
    match a with
    | Actor.caller => callerStep s
    | Actor.worker k =>
      match s.workers[k]? with
      | some w => workerStep s k w
      | none => none

/-- Runs a schedule, one action per entry; `none` when an entry cannot move. -/
def run {κ τ : Type} : List Actor → State κ τ → Option (State κ τ)
  | [], s => some s
  | a :: rest, s =>
    match step a s with
    | some s1 => run rest s1
    | none => none

/-! ## The transitions, one by one -/

/-- The transitions of the program, one constructor per branch of `step`. -/
inductive Step {κ τ : Type} (s : State κ τ) : State κ τ → Prop
  | enterStart (handler : TaskHandler κ τ) (rest : List (Call κ τ)) :
      s.panic = none → s.pc = CPc.idle → s.script = Call.start handler :: rest →
      Step s { s with pc := CPc.spawning 0 handler none }
  | enterStartWithContext (handler : TaskHandler κ τ) (generator : TaskContextGenerator κ)
      (rest : List (Call κ τ)) :
      s.panic = none → s.pc = CPc.idle →
      s.script = Call.startWithContext handler generator :: rest →
      Step s { s with pc := CPc.spawning 0 handler (some generator) }
  | spawn (i : Int) (handler : TaskHandler κ τ) (generator : Option (TaskContextGenerator κ))
      (call : Call κ τ) (rest : List (Call κ τ)) :
      s.panic = none → s.pc = CPc.spawning i handler generator → s.script = call :: rest →
      i < s.pool.count →
      Step s { s with
        workers := s.workers ++ [Worker.spawn i (contextFor generator i) handler],
        pc := CPc.spawning (i + 1) handler generator,
        events := s.events ++ generatedEvents generator i
          ++ [Event.spawned s.workers.length i (contextFor generator i)] }
  | startReturn (i : Int) (handler : TaskHandler κ τ)
      (generator : Option (TaskContextGenerator κ)) (call : Call κ τ) (rest : List (Call κ τ)) :
      s.panic = none → s.pc = CPc.spawning i handler generator → s.script = call :: rest →
      ¬ i < s.pool.count →
      Step s { s with script := rest, pc := CPc.idle }
  | submit (task : τ) (rest : List (Call κ τ)) :
      s.panic = none → s.pc = CPc.idle → s.script = Call.submit task :: rest →
      s.pool.tasks.closed = false → s.pool.tasks.buf.length < s.pool.tasks.cap →
      Step s { s with
        pool := { s.pool with tasks := { s.pool.tasks with buf := s.pool.tasks.buf ++ [task] } },
        script := rest,
        events := s.events ++ [Event.submitted task] }
  | submitPanic (task : τ) (rest : List (Call κ τ)) :
      s.panic = none → s.pc = CPc.idle → s.script = Call.submit task :: rest →
      s.pool.tasks.closed = true →
      Step s { s with panic := some Panic.sendOnClosedChannel }
  | close (rest : List (Call κ τ)) :
      s.panic = none → s.pc = CPc.idle → s.script = Call.waitForCompletion :: rest →
      s.pool.tasks.closed = false →
      Step s { s with
        pool := { s.pool with tasks := { s.pool.tasks with closed := true } },
        pc := CPc.collecting 0,
        events := s.events ++ [Event.closed] }
  | closePanic (rest : List (Call κ τ)) :
      s.panic = none → s.pc = CPc.idle → s.script = Call.waitForCompletion :: rest →
      s.pool.tasks.closed = true →
      Step s { s with panic := some Panic.closeOfClosedChannel }
  | collect (i : Int) (call : Call κ τ) (rest : List (Call κ τ)) (b : Bool) (bs : List Bool) :
      s.panic = none → s.pc = CPc.collecting i → s.script = call :: rest →
      i < s.pool.count → s.pool.acknowledge.buf = b :: bs →
      Step s { s with
        pool := { s.pool with acknowledge := { s.pool.acknowledge with buf := bs } },
        pc := CPc.collecting (i + 1),
        events := s.events ++ [Event.collected b] }
  | collectClosed (i : Int) (call : Call κ τ) (rest : List (Call κ τ)) :
      s.panic = none → s.pc = CPc.collecting i → s.script = call :: rest →
      i < s.pool.count → s.pool.acknowledge.buf = [] → s.pool.acknowledge.closed = true →
      Step s { s with pc := CPc.collecting (i + 1) }
  | waitReturn (i : Int) (call : Call κ τ) (rest : List (Call κ τ)) :
      s.panic = none → s.pc = CPc.collecting i → s.script = call :: rest →
      ¬ i < s.pool.count →
      Step s { s with script := rest, pc := CPc.idle, events := s.events ++ [Event.returned] }
  | recvTask (k : Nat) (w : Worker κ τ) (task : τ) (rest : List τ) :
      s.panic = none → s.workers[k]? = some w → w.pc = WPc.recv →
      s.pool.tasks.buf = task :: rest →
      Step s { s with
        pool := { s.pool with tasks := { s.pool.tasks with buf := rest } },
        workers := s.workers.set k (w.onRecv (some task)),
        events := s.events ++ [Event.received k task] }
  | recvClosed (k : Nat) (w : Worker κ τ) :
      s.panic = none → s.workers[k]? = some w → w.pc = WPc.recv →
      s.pool.tasks.buf = [] → s.pool.tasks.closed = true →
      Step s { s with workers := s.workers.set k (w.onRecv none) }
  | handle (k : Nat) (w : Worker κ τ) (task : τ) :
      s.panic = none → s.workers[k]? = some w → w.pc = WPc.handle task →
      Step s { s with
        workers := s.workers.set k (w.onTask task).1,
        events := s.events ++ (w.onTask task).2.map (Event.worker k w.id) }
  | ack (k : Nat) (w : Worker κ τ) :
      s.panic = none → s.workers[k]? = some w → w.pc = WPc.ack →
      s.pool.acknowledge.closed = false →
      s.pool.acknowledge.buf.length < s.pool.acknowledge.cap →
      Step s { s with
        pool := { s.pool with
          acknowledge := { s.pool.acknowledge with buf := s.pool.acknowledge.buf ++ [w.success] } },
        workers := s.workers.set k (Worker.onAck w).1,
        events := s.events ++ (Worker.onAck w).2.map (Event.worker k w.id) }
  | ackPanic (k : Nat) (w : Worker κ τ) :
      s.panic = none → s.workers[k]? = some w → w.pc = WPc.ack →
      s.pool.acknowledge.closed = true →
      Step s { s with panic := some Panic.sendOnClosedChannel }

/-! ## Reading the trace -/

/-- Task of a `Submit` that completed. -/
@[simp] def Event.submittedTask {κ τ : Type} : Event κ τ → Option τ
  | Event.submitted task => some task
  | _ => none

/-- Task a worker took from the queue. -/
@[simp] def Event.receivedTask {κ τ : Type} : Event κ τ → Option τ
  | Event.received _ task => some task
  | _ => none

/-- Task of a handler invocation. -/
@[simp] def Event.invokedTask {κ τ : Type} : Event κ τ → Option τ
  | Event.worker _ _ (WEvent.invoked _ task _) => some task
  | _ => none

/-- Value a worker sent on `acknowledge`. -/
@[simp] def Event.ackValue {κ τ : Type} : Event κ τ → Option Bool
  | Event.worker _ _ (WEvent.acknowledged b) => some b
  | _ => none

/-- Value `WaitForCompletion` received from `acknowledge`. -/
@[simp] def Event.collectedValue {κ τ : Type} : Event κ τ → Option Bool
  | Event.collected b => some b
  | _ => none

/-- The tasks submitted so far, in order. -/
def State.submitted {κ τ : Type} (s : State κ τ) : List τ := s.events.filterMap Event.submittedTask

/-- The tasks workers took from the queue so far, in order. -/
def State.received {κ τ : Type} (s : State κ τ) : List τ := s.events.filterMap Event.receivedTask

/-- The tasks the handler was invoked on so far, in order of invocation. -/
def State.invoked {κ τ : Type} (s : State κ τ) : List τ := s.events.filterMap Event.invokedTask

/-- The acknowledgments workers sent so far, in order. -/
def State.acks {κ τ : Type} (s : State κ τ) : List Bool := s.events.filterMap Event.ackValue

/-- The acknowledgments `WaitForCompletion` received so far, in order. -/
def State.collected {κ τ : Type} (s : State κ τ) : List Bool :=
  s.events.filterMap Event.collectedValue

/-- Whether `WaitForCompletion` has returned. -/
def State.returned {κ τ : Type} (s : State κ τ) : Prop := Event.returned ∈ s.events

instance State.decReturned {κ τ : Type} [DecidableEq κ] [DecidableEq τ] (s : State κ τ) :
    Decidable s.returned :=
  inferInstanceAs (Decidable (Event.returned ∈ s.events))

/-- Argument and result of a call of the context generator. -/
@[simp] def Event.generatedCall {κ τ : Type} : Event κ τ → Option (Int × Option κ)
  | Event.generated id context => some (id, context)
  | _ => none

/-- What the worker at position `k` did, if the event is one of its own. -/
@[simp] def Event.byWorker {κ τ : Type} (k : Nat) : Event κ τ → Option (WEvent κ τ)
  | Event.worker k1 _ e => if k1 = k then some e else none
  | _ => none

/-- The task the worker at position `k` took from the queue, if the event is
one of its receives. -/
@[simp] def Event.receivedBy {κ τ : Type} (k : Nat) : Event κ τ → Option τ
  | Event.received k1 task => if k1 = k then some task else none
  | _ => none

/-- What the worker at position `k` did so far, in order. -/
def State.trace {κ τ : Type} (s : State κ τ) (k : Nat) : List (WEvent κ τ) :=
  s.events.filterMap (Event.byWorker k)

/-- The tasks the worker at position `k` took from the queue so far, in order. -/
def State.receivedBy {κ τ : Type} (s : State κ τ) (k : Nat) : List τ :=
  s.events.filterMap (Event.receivedBy k)

/-- The invocation of the worker's handler on a task, as an event. -/
def Worker.invocation {κ τ : Type} (w : Worker κ τ) (task : τ) : WEvent κ τ :=
  WEvent.invoked w.context task (w.handler w.context task)

/-- Whether the worker has returned. -/
def Worker.isDone {κ τ : Type} (w : Worker κ τ) : Bool :=
  match w.pc with
  | WPc.done => true
  | _ => false

/-- The task the worker holds between its receive and the handler call. -/
def Worker.inHand {κ τ : Type} (w : Worker κ τ) : Option τ :=
  match w.pc with
  | WPc.handle task => some task
  | _ => none

/-- States the program can be in, starting from `s0`. -/
inductive Reachable {κ τ : Type} (s0 : State κ τ) : State κ τ → Prop
  | init : Reachable s0 s0
  | step {s s1 : State κ τ} : Reachable s0 s → Step s s1 → Reachable s0 s1

/-! ## Invariants -/

/-- Facts about the channels and the caller in a program started on the pool
that `New K` returned. -/
structure ChanInv {κ τ : Type} (K : Int) (s : State κ τ) : Prop where
  count : s.pool.count = K
  nonneg : 0 ≤ K
  tasksCap : s.pool.tasks.cap = 10000
  ackCap : s.pool.acknowledge.cap = K.toNat
  ackOpen : s.pool.acknowledge.closed = false
  bounded : s.pool.tasks.buf.length ≤ s.pool.tasks.cap
  fifo : s.submitted = s.received ++ s.pool.tasks.buf
  ackFifo : s.acks = s.collected ++ s.pool.acknowledge.buf
  closedEvent : s.pool.tasks.closed = true ↔ Event.closed ∈ s.events
  beforeClose : s.pool.tasks.closed = false →
    s.collected = [] ∧ ¬ s.returned ∧ ∀ i, s.pc ≠ CPc.collecting i
  collecting : ∀ i, s.pc = CPc.collecting i →
    s.pool.tasks.closed = true ∧ (s.collected.length : Int) = i ∧ i ≤ K ∧ ¬ s.returned
  returned : s.returned →
    s.pool.tasks.closed = true ∧ (s.collected.length : Int) = K ∧ ∀ i, s.pc ≠ CPc.collecting i
  spawning : ∀ i h g, s.pc = CPc.spawning i h g → 0 ≤ i ∧ i ≤ K

/-- Facts about the workers that hold in every reachable state, whatever the
caller does. -/
structure WorkInv {κ τ : Type} (s : State κ τ) : Prop where
  running : ∀ w ∈ s.workers, (w.pc = WPc.recv ∨ ∃ t, w.pc = WPc.handle t) → w.success = true
  sawClosed : ∀ w ∈ s.workers, (w.pc = WPc.ack ∨ w.pc = WPc.done) → w.success = true →
    s.pool.tasks.closed = true ∧ s.pool.tasks.buf = []
  failed : ∀ w ∈ s.workers, w.success = false → ∃ t, w.handler w.context t = false
  ackCount : s.acks.length = s.workers.countP Worker.isDone
  handPerm : s.received.Perm (s.invoked ++ s.workers.filterMap Worker.inHand)
  single : s.workers.length ≤ 1 → s.received = s.invoked ++ s.workers.filterMap Worker.inHand

/-- The call that starts the pool: `Start(handler)` without a generator,
`StartWithContext(handler, generator)` with one. -/
def startCall {κ τ : Type} (handler : TaskHandler κ τ)
    (generator : Option (TaskContextGenerator κ)) : Call κ τ :=
  match generator with
  | none => Call.start handler
  | some g => Call.startWithContext handler g

/-- The caller of `main`: start the pool once, submit the tasks `ts` in
order, then wait for completion. -/
def program {κ τ : Type} (handler : TaskHandler κ τ)
    (generator : Option (TaskContextGenerator κ)) (ts : List τ) : List (Call κ τ) :=
  startCall handler generator :: (ts.map Call.submit ++ [Call.waitForCompletion])

/-- Where the caller of `program` stands, in terms of its position, the calls
left, the number of workers, the tasks submitted, and whether the queue is
closed and the wait has returned. -/
def Phase {κ τ : Type} (K : Int) (handler : TaskHandler κ τ)
    (generator : Option (TaskContextGenerator κ)) (ts : List τ)
    (pc : CPc κ τ) (script : List (Call κ τ)) (n : Nat) (submitted : List τ)
    (closed : Bool) (returned : Prop) : Prop :=
  (pc = CPc.idle ∧ script = program handler generator ts ∧ n = 0 ∧ submitted = []
      ∧ closed = false ∧ ¬ returned)
  ∨ (∃ i, pc = CPc.spawning i handler generator ∧ script = program handler generator ts
      ∧ (n : Int) = i ∧ submitted = [] ∧ closed = false ∧ ¬ returned)
  ∨ (∃ rest, pc = CPc.idle ∧ script = rest.map Call.submit ++ [Call.waitForCompletion]
      ∧ (n : Int) = K ∧ submitted ++ rest = ts ∧ closed = false ∧ ¬ returned)
  ∨ (∃ i, pc = CPc.collecting i ∧ script = [Call.waitForCompletion]
      ∧ (n : Int) = K ∧ submitted = ts ∧ closed = true ∧ ¬ returned)
  ∨ (pc = CPc.idle ∧ script = [] ∧ (n : Int) = K ∧ submitted = ts ∧ closed = true ∧ returned)

/-- Facts about a run of `program` on the pool that `New K` returned. -/
structure ProgInv {κ τ : Type} (K : Int) (handler : TaskHandler κ τ)
    (generator : Option (TaskContextGenerator κ)) (ts : List τ) (s : State κ τ) : Prop where
  noPanic : s.panic = none
  frames : ∀ (k : Nat) (w : Worker κ τ), s.workers[k]? = some w →
    w.id = (k : Int) ∧ w.context = contextFor generator k ∧ w.handler = handler
  phase : Phase K handler generator ts s.pc s.script s.workers.length s.submitted
    s.pool.tasks.closed s.returned

/-- Why a worker that left its loop did so, given the tasks `rc` it received:
either the handler accepted them all and `success` still holds, or the
handler rejected the last one, having accepted the others, and `success` is
false. -/
def Worker.Stopped {κ τ : Type} (w : Worker κ τ) (rc : List τ) : Prop :=
  (w.success = true ∧ ∀ t ∈ rc, w.handler w.context t = true) ∨
  (w.success = false ∧ ∃ rc1 t, rc = rc1 ++ [t] ∧ (∀ u ∈ rc1, w.handler w.context u = true) ∧
    w.handler w.context t = false)

/-- The frame of a worker agrees with the tasks `rc` it received and with
what it did, `tr`. -/
def Worker.Consistent {κ τ : Type} (w : Worker κ τ) (rc : List τ) (tr : List (WEvent κ τ)) :
    Prop :=
  match w.pc with
  | WPc.recv =>
    w.success = true ∧ tr = rc.map w.invocation ∧ ∀ t ∈ rc, w.handler w.context t = true
  | WPc.handle task =>
    w.success = true ∧ ∃ rc1, rc = rc1 ++ [task] ∧ tr = rc1.map w.invocation ∧
      ∀ u ∈ rc1, w.handler w.context u = true
  | WPc.ack => tr = rc.map w.invocation ∧ w.Stopped rc
  | WPc.done => tr = rc.map w.invocation ++ [WEvent.acknowledged w.success] ∧ w.Stopped rc

/-- Every worker's frame agrees with its part of the trace, and positions
without a worker have no part in the trace. -/
def TraceInv {κ τ : Type} (s : State κ τ) : Prop :=
  ∀ k : Nat,
    (∀ w : Worker κ τ, s.workers[k]? = some w → w.Consistent (s.receivedBy k) (s.trace k)) ∧
    (s.workers.length ≤ k → s.receivedBy k = [] ∧ s.trace k = [])

/-- Every entry of a trace satisfies `Q` with respect to what precedes it. -/
def Ordered {α : Type} (Q : List α → α → Prop) (l : List α) : Prop :=
  ∀ pre e post, l = pre ++ e :: post → Q pre e

/-- What must precede an event in a run started with `StartWithContext` and
the generator `gen`: a spawn of the worker with id `k` comes right after the
call `gen k` and passes its result; anything a worker at position `k` does
comes after its spawn, and a handler invocation gets `gen k` as context. -/
def StartOrder {κ τ : Type} (gen : TaskContextGenerator κ) (pre : List (Event κ τ))
    (e : Event κ τ) : Prop :=
  (∀ (k : Nat) (id : Int) (c : Option κ), e = Event.spawned k id c →
    id = (k : Int) ∧ c = gen k ∧ pre.getLast? = some (Event.generated k (gen k))) ∧
  (∀ (k : Nat) (id : Int) (we : WEvent κ τ), e = Event.worker k id we →
    id = (k : Int) ∧ Event.spawned k k (gen k) ∈ pre ∧
    ∀ c t r, we = WEvent.invoked c t r → c = gen k)

/-- Facts about the trace of a run of `program` started with
`StartWithContext` and the generator `gen`. -/
structure StartInv {κ τ : Type} (gen : TaskContextGenerator κ) (s : State κ τ) : Prop where
  calls : s.events.filterMap Event.generatedCall
    = (List.range s.workers.length).map (fun k => ((k : Int), gen k))
  spawned : ∀ k : Nat, k < s.workers.length → Event.spawned k k (gen k) ∈ s.events
  order : Ordered (StartOrder gen) s.events

/-- The number of actions a call stands for on a pool of `K` workers, those
of the workers it spawns and of the task it submits included. -/
def Call.cost {κ τ : Type} (K : Nat) : Call κ τ → Nat
  | Call.start _ => 3 * K + 2
  | Call.startWithContext _ _ => 3 * K + 2
  | Call.submit _ => 3
  | Call.waitForCompletion => K + 2

/-- The number of actions a worker has left when no further task arrives. -/
def Worker.remaining {κ τ : Type} (w : Worker κ τ) : Nat :=
  match w.pc with
  | WPc.recv => 2
  | WPc.handle _ => 3
  | WPc.ack => 1
  | WPc.done => 0

/-- A bound on the number of actions the program has left: those of the
caller, those of the workers, and two for every task in the queue. -/
def State.fuel {κ τ : Type} (s : State κ τ) : Nat :=
  (match s.pc with
    | CPc.idle => (s.script.map (Call.cost s.pool.count.toNat)).sum
    | CPc.spawning i _ _ =>
      3 * (s.pool.count.toNat - i.toNat) + 1
        + (s.script.tail.map (Call.cost s.pool.count.toNat)).sum
    | CPc.collecting i =>
      (s.pool.count.toNat - i.toNat) + 1
        + (s.script.tail.map (Call.cost s.pool.count.toNat)).sum)
  + (s.workers.map Worker.remaining).sum + 2 * s.pool.tasks.buf.length

/-! ## Example runs -/

/-- Limits of the order of what a 64-bit platform accepts. -/
def exampleLimits : Limits := { tasks := 1000000000000, acks := 100000000000000 }

/-- The pool that `New` returns for a non-negative `numWorkers` within the
limits. -/
def examplePool (numWorkers : Nat) : Pool Nat :=
  { count := numWorkers, tasks := { buf := [], cap := 10000, closed := false },
    acknowledge := { buf := [], cap := numWorkers, closed := false } }

/-- Handler that is true on every task. -/
def alwaysTrue : TaskHandler Nat Nat := fun _ _ => true

/-- Handler that is false exactly on task 2. -/
def falseOnTwo : TaskHandler Nat Nat := fun _ task => task != 2

/-- Two workers, tasks 10, 20, 30: the schedule lets the second worker call
the handler on 20 before the first calls it on 10. -/
def twoWorkersSched : List Actor :=
  [Actor.caller, Actor.caller, Actor.caller, Actor.caller, Actor.caller, Actor.caller,
    Actor.caller, Actor.worker 0, Actor.worker 1, Actor.worker 1, Actor.worker 0,
    Actor.worker 0, Actor.worker 0, Actor.caller, Actor.worker 0, Actor.worker 1,
    Actor.worker 0, Actor.worker 1, Actor.caller, Actor.caller, Actor.caller]

def twoWorkersInit : State Nat Nat :=
  State.init (examplePool 2) (program alwaysTrue none [10, 20, 30])

def twoWorkersFinal : State Nat Nat := (run twoWorkersSched twoWorkersInit).get (by decide)

/-- One worker, tasks 1, 2, 3, handler false on 2, run to the return of
`WaitForCompletion`. -/
def bailOutSched : List Actor :=
  [Actor.caller, Actor.caller, Actor.caller, Actor.caller, Actor.caller, Actor.caller,
    Actor.worker 0, Actor.worker 0, Actor.worker 0, Actor.worker 0, Actor.caller,
    Actor.worker 0, Actor.caller, Actor.caller]

def bailOutInit : State Nat Nat :=
  State.init (examplePool 1) (program falseOnTwo none [1, 2, 3])

def bailOutFinal : State Nat Nat := (run bailOutSched bailOutInit).get (by decide)

/-- One worker, no task: `Start`, `WaitForCompletion`, then a late
`Submit(7)`; the schedule stops after the return of `WaitForCompletion`. -/
def lateSubmitSched : List Actor :=
  [Actor.caller, Actor.caller, Actor.caller, Actor.caller, Actor.worker 0, Actor.worker 0,
    Actor.caller, Actor.caller]

def lateSubmitInit : State Nat Nat :=
  State.init (examplePool 1) [Call.start alwaysTrue, Call.waitForCompletion, Call.submit 7]

def lateSubmitFinal : State Nat Nat := (run lateSubmitSched lateSubmitInit).get (by decide)

/-- No worker: `Start`, `Submit(5)`, `WaitForCompletion`. -/
def noWorkerSched : List Actor :=
  [Actor.caller, Actor.caller, Actor.caller, Actor.caller, Actor.caller]

def noWorkerInit : State Nat Nat :=
  State.init (examplePool 0) [Call.start alwaysTrue, Call.submit 5, Call.waitForCompletion]

def noWorkerFinal : State Nat Nat := (run noWorkerSched noWorkerInit).get (by decide)

/-- No worker, after `Start` and `Submit(5)`, before `WaitForCompletion`. -/
def noWorkerMid : State Nat Nat :=
  (run [Actor.caller, Actor.caller, Actor.caller] noWorkerInit).get (by decide)

/-- A fresh pool whose caller only submits: after two of three submissions. -/
def submitOnlyInit : State Nat Nat :=
  State.init (examplePool 1) [Call.submit 1, Call.submit 2, Call.submit 3]

def submitOnlyMid : State Nat Nat :=
  (run [Actor.caller, Actor.caller] submitOnlyInit).get (by decide)

/-- The frame of the one worker at the end of the bail-out run. -/
def bailOutWorker : Worker Nat Nat :=
  { id := 0, context := none, handler := falseOnTwo, success := false, pc := WPc.done }

/-- Scenario C: the generator that gives worker `id` the context `id * 10`. -/
def timesTen : TaskContextGenerator Int := fun id => some (id * 10)

/-- Handler that is true on every task, for contexts that are integers. -/
def alwaysTrueCtx : TaskHandler Int Nat := fun _ _ => true

/-- Three workers started with `timesTen`, tasks 1, 2, 3, each worker taking
one task, run to the return of `WaitForCompletion`. -/
def contextSched : List Actor :=
  [Actor.caller, Actor.caller, Actor.caller, Actor.caller, Actor.caller, Actor.caller,
    Actor.caller, Actor.caller, Actor.worker 2, Actor.worker 0, Actor.worker 1,
    Actor.worker 1, Actor.worker 2, Actor.worker 0, Actor.caller, Actor.worker 0,
    Actor.worker 1, Actor.worker 2, Actor.worker 0, Actor.worker 1, Actor.worker 2,
    Actor.caller, Actor.caller, Actor.caller, Actor.caller]

def contextInit : State Int Nat :=
  State.init (examplePool 3) (program alwaysTrueCtx (some timesTen) [1, 2, 3])

def contextFinal : State Int Nat := (run contextSched contextInit).get (by decide)

/-! ## Transitions and reachability -/

/-- Every action of `step` is one of the transitions of `Step`. -/
theorem Step.of_step {κ τ : Type} {a : Actor} {s s1 : State κ τ} (h : step a s = some s1) :
    Step s s1 := by
  unfold step at h
  split at h
  · exact absurd h (by simp)
  next hp =>
    split at h
    · -- the caller
      unfold callerStep at h
      split at h
      · exact absurd h (by simp)
      next call rest hs =>
        split at h
        next hpc =>
          split at h
          next handler =>
            cases h; exact Step.enterStart handler rest hp hpc hs
          next handler generator =>
            cases h; exact Step.enterStartWithContext handler generator rest hp hpc hs
          next task =>
            unfold Submit Chan.send at h
            by_cases hc : s.pool.tasks.closed = true
            · simp [hc] at h
              cases h; exact Step.submitPanic task rest hp hpc hs hc
            · by_cases hl : s.pool.tasks.buf.length < s.pool.tasks.cap
              · simp [hc, hl] at h
                cases h
                have hc1 : s.pool.tasks.closed = false := by simpa using hc
                simpa [hc1] using Step.submit task rest hp hpc hs hc1 hl
              · simp [hc, hl] at h
          next =>
            unfold waitClose Chan.close at h
            by_cases hc : s.pool.tasks.closed = true
            · simp [hc] at h
              cases h; exact Step.closePanic rest hp hpc hs hc
            · simp [hc] at h
              cases h; exact Step.close rest hp hpc hs (by simpa using hc)
        next i handler generator hpc =>
          by_cases hi : i < s.pool.count
          · have : startLoop s i handler generator rest = { s with
                workers := s.workers ++ [Worker.spawn i (contextFor generator i) handler],
                pc := CPc.spawning (i + 1) handler generator,
                events := s.events ++ generatedEvents generator i
                  ++ [Event.spawned s.workers.length i (contextFor generator i)] } := by
              simp [startLoop, hi]
            rw [this] at h
            cases h; exact Step.spawn i handler generator call rest hp hpc hs hi
          · have : startLoop s i handler generator rest = { s with script := rest, pc := CPc.idle } := by
              simp [startLoop, hi]
            rw [this] at h
            cases h; exact Step.startReturn i handler generator call rest hp hpc hs hi
        next i hpc =>
          unfold waitLoop Chan.recv at h
          by_cases hi : i < s.pool.count
          · simp only [hi, if_true] at h
            cases hb : s.pool.acknowledge.buf with
            | nil =>
              by_cases hc : s.pool.acknowledge.closed = true
              · simp [hb, hc] at h
                cases h; exact Step.collectClosed i call rest hp hpc hs hi hb hc
              · simp [hb, hc] at h
            | cons b bs =>
              simp [hb] at h
              cases h; exact Step.collect i call rest b bs hp hpc hs hi hb
          · simp only [hi, if_false] at h
            cases h; exact Step.waitReturn i call rest hp hpc hs hi
    next k =>
      split at h
      next w hw =>
        unfold workerStep at h
        split at h
        next hpc =>
          unfold Chan.recv at h
          cases hb : s.pool.tasks.buf with
          | nil =>
            by_cases hc : s.pool.tasks.closed = true
            · simp [hb, hc] at h
              cases h; exact Step.recvClosed k w hp hw hpc hb hc
            · simp [hb, hc] at h
          | cons task rest =>
            simp [hb] at h
            cases h; exact Step.recvTask k w task rest hp hw hpc hb
        next task hpc =>
          cases h; exact Step.handle k w task hp hw hpc
        next hpc =>
          unfold Chan.send at h
          by_cases hc : s.pool.acknowledge.closed = true
          · simp [hc] at h
            cases h; exact Step.ackPanic k w hp hw hpc hc
          · by_cases hl : s.pool.acknowledge.buf.length < s.pool.acknowledge.cap
            · simp [hc, hl] at h
              cases h
              have hc1 : s.pool.acknowledge.closed = false := by simpa using hc
              simpa [hc1] using Step.ack k w hp hw hpc hc1 hl
            · simp [hc, hl] at h
        next => exact absurd h (by simp)
      · exact absurd h (by simp)

theorem Reachable.head {κ τ : Type} {s0 s1 s : State κ τ} (h : Step s0 s1)
    (r : Reachable s1 s) : Reachable s0 s := by
  induction r with
  | init => exact Reachable.step Reachable.init h
  | step _ hs ih => exact Reachable.step ih hs

/-- What a schedule produces is reachable. -/
theorem Reachable.of_run {κ τ : Type} {sched : List Actor} {s0 s : State κ τ}
    (h : run sched s0 = some s) : Reachable s0 s := by
  induction sched generalizing s0 with
  | nil =>
    simp only [run, Option.some.injEq] at h
    subst h
    exact Reachable.init
  | cons a rest ih =>
    unfold run at h
    split at h
    next s1 hs => exact Reachable.head (Step.of_step hs) (ih h)
    next => exact absurd h (by simp)

/-! ## Lists of workers -/

theorem countP_set_add {α : Type} (p : α → Bool) (l : List α) (k : Nat) (w v : α)
    (h : l[k]? = some w) :
    (l.set k v).countP p + (if p w then 1 else 0) = l.countP p + (if p v then 1 else 0) := by
  induction l generalizing k with
  | nil => simp at h
  | cons x xs ih =>
    cases k with
    | zero =>
      simp only [List.getElem?_cons_zero, Option.some.injEq] at h
      subst h
      simp only [List.set_cons_zero, List.countP_cons]
      omega
    | succ k =>
      simp only [List.getElem?_cons_succ] at h
      have := ih k h
      simp only [List.set_cons_succ, List.countP_cons]
      omega

theorem mem_of_getElem?_eq {α : Type} {l : List α} {k : Nat} {w : α} (h : l[k]? = some w) :
    w ∈ l := by
  rw [List.getElem?_eq_some] at h
  obtain ⟨hk, rfl⟩ := h
  exact List.getElem_mem hk

theorem forall_mem_set {α : Type} {P : α → Prop} {l : List α} {k : Nat} {v : α}
    (hl : ∀ x ∈ l, P x) (hv : P v) : ∀ x ∈ l.set k v, P x := by
  intro x hx
  rcases List.mem_or_eq_of_mem_set hx with h | h
  · exact hl x h
  · exact h ▸ hv

theorem single_of_getElem? {α : Type} {l : List α} {k : Nat} {w : α} (hlen : l.length ≤ 1)
    (h : l[k]? = some w) : l = [w] ∧ k = 0 := by
  match l, hlen, h with
  | [x], _, h =>
    cases k with
    | zero => simp at h; simp [h]
    | succ k => simp at h


/-! ## Generator events carry nothing else -/

@[simp] theorem filterMap_submittedTask_generatedEvents {κ τ : Type}
    (g : Option (TaskContextGenerator κ)) (i : Int) :
    (generatedEvents g i : List (Event κ τ)).filterMap Event.submittedTask = [] := by
  cases g <;> rfl

@[simp] theorem filterMap_receivedTask_generatedEvents {κ τ : Type}
    (g : Option (TaskContextGenerator κ)) (i : Int) :
    (generatedEvents g i : List (Event κ τ)).filterMap Event.receivedTask = [] := by
  cases g <;> rfl

@[simp] theorem filterMap_invokedTask_generatedEvents {κ τ : Type}
    (g : Option (TaskContextGenerator κ)) (i : Int) :
    (generatedEvents g i : List (Event κ τ)).filterMap Event.invokedTask = [] := by
  cases g <;> rfl

@[simp] theorem filterMap_ackValue_generatedEvents {κ τ : Type}
    (g : Option (TaskContextGenerator κ)) (i : Int) :
    (generatedEvents g i : List (Event κ τ)).filterMap Event.ackValue = [] := by
  cases g <;> rfl

@[simp] theorem filterMap_collectedValue_generatedEvents {κ τ : Type}
    (g : Option (TaskContextGenerator κ)) (i : Int) :
    (generatedEvents g i : List (Event κ τ)).filterMap Event.collectedValue = [] := by
  cases g <;> rfl

@[simp] theorem returned_not_mem_generatedEvents {κ τ : Type}
    (g : Option (TaskContextGenerator κ)) (i : Int) :
    (Event.returned : Event κ τ) ∉ generatedEvents g i := by
  cases g <;> simp [generatedEvents]

@[simp] theorem closed_not_mem_generatedEvents {κ τ : Type}
    (g : Option (TaskContextGenerator κ)) (i : Int) :
    (Event.closed : Event κ τ) ∉ generatedEvents g i := by
  cases g <;> simp [generatedEvents]

/-! ## What a handler call adds to the trace -/

@[simp] theorem filterMap_submittedTask_onTask {κ τ : Type} (w : Worker κ τ) (t : τ) (k : Nat)
    (id : Int) :
    (w.onTask t).2.filterMap (Event.submittedTask ∘ Event.worker k id) = [] := by
  unfold Worker.onTask; split <;> simp

@[simp] theorem filterMap_receivedTask_onTask {κ τ : Type} (w : Worker κ τ) (t : τ) (k : Nat)
    (id : Int) :
    (w.onTask t).2.filterMap (Event.receivedTask ∘ Event.worker k id) = [] := by
  unfold Worker.onTask; split <;> simp

@[simp] theorem filterMap_ackValue_onTask {κ τ : Type} (w : Worker κ τ) (t : τ) (k : Nat)
    (id : Int) :
    (w.onTask t).2.filterMap (Event.ackValue ∘ Event.worker k id) = [] := by
  unfold Worker.onTask; split <;> simp

@[simp] theorem filterMap_collectedValue_onTask {κ τ : Type} (w : Worker κ τ) (t : τ) (k : Nat)
    (id : Int) :
    (w.onTask t).2.filterMap (Event.collectedValue ∘ Event.worker k id) = [] := by
  unfold Worker.onTask; split <;> simp





theorem filterMap_invokedTask_onTask {κ τ : Type} (w : Worker κ τ) (t : τ) (k : Nat)
    (id : Int) :
    (w.onTask t).2.filterMap (Event.invokedTask ∘ Event.worker k id)
      = if w.success then [t] else [] := by
  unfold Worker.onTask; split <;> simp

theorem forall_mem_snoc {α : Type} {P : α → Prop} {l : List α} {v : α}
    (hl : ∀ x ∈ l, P x) (hv : P v) : ∀ x ∈ l ++ [v], P x := by
  intro x hx
  rcases List.mem_append.mp hx with h | h
  · exact hl x h
  · rw [List.mem_singleton] at h
    exact h ▸ hv

theorem countP_set_same {α : Type} (p : α → Bool) {l : List α} {k : Nat} {w : α} (v : α)
    (h : l[k]? = some w) (hp : p v = p w) : (l.set k v).countP p = l.countP p := by
  have := countP_set_add p l k w v h
  rw [hp] at this
  omega

theorem countP_set_succ {α : Type} (p : α → Bool) {l : List α} {k : Nat} {w : α} (v : α)
    (h : l[k]? = some w) (hw : p w = false) (hv : p v = true) :
    (l.set k v).countP p = l.countP p + 1 := by
  have := countP_set_add p l k w v h
  rw [hw, hv] at this
  simpa using this

theorem filterMap_submittedTask_map {κ τ : Type} (ts : List τ) :
    (ts.map (Event.submitted : τ → Event κ τ)).filterMap Event.submittedTask = ts := by
  induction ts with
  | nil => rfl
  | cons t ts ih => simp [ih]

theorem filterMap_cons_toList {α β : Type} (f : α → Option β) (x : α) (xs : List α) :
    (x :: xs).filterMap f = (f x).toList ++ xs.filterMap f := by
  cases hx : f x <;> simp [List.filterMap_cons, hx]

theorem filterMap_set_perm {α β : Type} (f : α → Option β) (l : List α) (k : Nat) (w v : α)
    (h : l[k]? = some w) :
    ((f w).toList ++ (l.set k v).filterMap f).Perm ((f v).toList ++ l.filterMap f) := by
  induction l generalizing k with
  | nil => simp at h
  | cons x xs ih =>
    cases k with
    | zero =>
      simp only [List.getElem?_cons_zero, Option.some.injEq] at h
      subst h
      rw [List.set_cons_zero, filterMap_cons_toList, filterMap_cons_toList,
        ← List.append_assoc, ← List.append_assoc]
      exact List.Perm.append_right _ List.perm_append_comm
    | succ k =>
      simp only [List.getElem?_cons_succ] at h
      have := ih k h
      rw [List.set_cons_succ, filterMap_cons_toList, filterMap_cons_toList]
      have e1 : (f w).toList ++ ((f x).toList ++ (xs.set k v).filterMap f)
          = ((f w).toList ++ (f x).toList) ++ (xs.set k v).filterMap f := by
        rw [List.append_assoc]
      have e2 : ((f x).toList ++ (f w).toList) ++ (xs.set k v).filterMap f
          = (f x).toList ++ ((f w).toList ++ (xs.set k v).filterMap f) := by
        rw [List.append_assoc]
      have e3 : (f x).toList ++ ((f v).toList ++ xs.filterMap f)
          = ((f x).toList ++ (f v).toList) ++ xs.filterMap f := by
        rw [List.append_assoc]
      have e4 : ((f v).toList ++ (f x).toList) ++ xs.filterMap f
          = (f v).toList ++ ((f x).toList ++ xs.filterMap f) := by
        rw [List.append_assoc]
      rw [e1, ← e4]
      refine (List.Perm.append_right _ List.perm_append_comm).trans ?_
      rw [e2]
      refine (List.Perm.append_left _ this).trans ?_
      rw [e3]
      exact List.Perm.append_right _ List.perm_append_comm

/-- The caller never takes anything out of the task queue. -/
theorem caller_step_buf {κ τ : Type} {s s1 : State κ τ} (h : step Actor.caller s = some s1) :
    s.pool.tasks.buf.length ≤ s1.pool.tasks.buf.length := by
  unfold step at h
  split at h
  · exact absurd h (by simp)
  · simp only at h
    unfold callerStep at h
    split at h
    · exact absurd h (by simp)
    · split at h
      · split at h
        · cases h; exact le_refl _
        · cases h; exact le_refl _
        · unfold Submit Chan.send at h
          by_cases hc : s.pool.tasks.closed = true
          · simp [hc] at h
            subst h
            exact le_refl _
          · by_cases hl : s.pool.tasks.buf.length < s.pool.tasks.cap
            · simp [hc, hl] at h
              subst h
              simp
            · simp [hc, hl] at h
        · unfold waitClose Chan.close at h
          by_cases hc : s.pool.tasks.closed = true
          · simp [hc] at h
            subst h
            exact le_refl _
          · simp [hc] at h
            subst h
            exact le_refl _
      · unfold startLoop at h
        split at h <;> (cases h; exact le_refl _)
      · unfold waitLoop Chan.recv at h
        split at h
        · split at h
          · next heq =>
            cases h
            exact le_refl _
          · cases h; exact le_refl _
          · exact absurd h (by simp)
        · cases h; exact le_refl _
/-! ## The channel invariant -/

theorem makeChan_ok {α : Type} {limit : Nat} {size : Int} {c : Chan α}
    (h : makeChan α limit size = Except.ok c) :
    0 ≤ size ∧ size ≤ limit ∧ c = { buf := [], cap := size.toNat, closed := false } := by
  unfold makeChan at h
  cases size with
  | negSucc m => cases h
  | ofNat n =>
    simp only at h
    split at h
    · cases h
    · cases h
      exact ⟨Int.ofNat_nonneg n, by simp; omega, rfl⟩

theorem New_ok {τ : Type} {K : Int} {lim : Limits} {p : Pool τ}
    (h : New τ lim K = Except.ok p) :
    0 ≤ K ∧ p = { count := K, tasks := { buf := [], cap := 10000, closed := false },
                  acknowledge := { buf := [], cap := K.toNat, closed := false } } := by
  unfold New at h
  cases ht : makeChan τ lim.tasks 10000 with
  | error e =>
    rw [ht] at h
    cases h
  | ok tasks =>
    rw [ht] at h
    cases ha : makeChan Bool lim.acks K with
    | error e =>
      rw [ha] at h
      cases h
    | ok acknowledge =>
      rw [ha] at h
      obtain ⟨_, _, e1⟩ := makeChan_ok ht
      obtain ⟨hK, _, e2⟩ := makeChan_ok ha
      simp only [Except.ok.injEq] at h
      refine ⟨hK, ?_⟩
      rw [← h, e1, e2]
      simp

theorem chanInv_init {κ τ : Type} {K : Int} {lim : Limits} {p : Pool τ}
    (h : New τ lim K = Except.ok p)
    (script : List (Call κ τ)) : ChanInv K (State.init p script) := by
  obtain ⟨hK, rfl⟩ := New_ok h
  constructor <;>
    simp [State.init, State.submitted, State.received, State.acks, State.collected,
      State.returned, hK]

theorem Step.count_eq {κ τ : Type} {s s1 : State κ τ} (h : Step s s1) :
    s1.pool.count = s.pool.count := by
  cases h <;> simp

theorem Step.tasks_cap_eq {κ τ : Type} {s s1 : State κ τ} (h : Step s s1) :
    s1.pool.tasks.cap = s.pool.tasks.cap := by
  cases h <;> simp

theorem Step.ack_cap_eq {κ τ : Type} {s s1 : State κ τ} (h : Step s s1) :
    s1.pool.acknowledge.cap = s.pool.acknowledge.cap := by
  cases h <;> simp

theorem Step.ack_closed_eq {κ τ : Type} {s s1 : State κ τ} (h : Step s s1) :
    s1.pool.acknowledge.closed = s.pool.acknowledge.closed := by
  cases h <;> simp

theorem Step.bounded {κ τ : Type} {s s1 : State κ τ} (h : Step s s1)
    (hb : s.pool.tasks.buf.length ≤ s.pool.tasks.cap) :
    s1.pool.tasks.buf.length ≤ s1.pool.tasks.cap := by
  cases h <;> simp_all <;> omega

theorem Step.fifo {κ τ : Type} {s s1 : State κ τ} (h : Step s s1)
    (hb : s.submitted = s.received ++ s.pool.tasks.buf) :
    s1.submitted = s1.received ++ s1.pool.tasks.buf := by
  simp only [State.submitted, State.received] at *
  cases h <;> simp_all [Worker.onAck]

theorem Step.ackFifo {κ τ : Type} {s s1 : State κ τ} (h : Step s s1)
    (ho : s.pool.acknowledge.closed = false)
    (hb : s.acks = s.collected ++ s.pool.acknowledge.buf) :
    s1.acks = s1.collected ++ s1.pool.acknowledge.buf := by
  simp only [State.acks, State.collected] at *
  cases h <;> simp_all [Worker.onAck]

theorem Step.closedEvent {κ τ : Type} {s s1 : State κ τ} (h : Step s s1)
    (hb : s.pool.tasks.closed = true ↔ Event.closed ∈ s.events) :
    s1.pool.tasks.closed = true ↔ Event.closed ∈ s1.events := by
  cases h <;> simp_all [Worker.onAck]

theorem Step.beforeClose {κ τ : Type} {s s1 : State κ τ} (h : Step s s1)
    (hb : s.pool.tasks.closed = false →
      s.collected = [] ∧ ¬ s.returned ∧ ∀ i, s.pc ≠ CPc.collecting i) :
    s1.pool.tasks.closed = false →
      s1.collected = [] ∧ ¬ s1.returned ∧ ∀ i, s1.pc ≠ CPc.collecting i := by
  simp only [State.collected, State.returned] at *
  cases h <;> simp_all [Worker.onAck]

theorem Step.collecting {κ τ : Type} {K : Int} {s s1 : State κ τ} (h : Step s s1)
    (hc : s.pool.count = K) (hK : 0 ≤ K) (ho : s.pool.acknowledge.closed = false)
    (hb : s.pool.tasks.closed = false →
      s.collected = [] ∧ ¬ s.returned ∧ ∀ i, s.pc ≠ CPc.collecting i)
    (hcol : ∀ i, s.pc = CPc.collecting i →
      s.pool.tasks.closed = true ∧ (s.collected.length : Int) = i ∧ i ≤ K ∧ ¬ s.returned) :
    ∀ i, s1.pc = CPc.collecting i →
      s1.pool.tasks.closed = true ∧ (s1.collected.length : Int) = i ∧ i ≤ K
        ∧ ¬ s1.returned := by
  simp only [State.collected, State.returned] at *
  cases h <;> simp_all [Worker.onAck] <;> omega

theorem Step.returned {κ τ : Type} {K : Int} {s s1 : State κ τ} (h : Step s s1)
    (hc : s.pool.count = K)
    (hcol : ∀ i, s.pc = CPc.collecting i →
      s.pool.tasks.closed = true ∧ (s.collected.length : Int) = i ∧ i ≤ K ∧ ¬ s.returned)
    (hr : s.returned →
      s.pool.tasks.closed = true ∧ (s.collected.length : Int) = K
        ∧ ∀ i, s.pc ≠ CPc.collecting i) :
    s1.returned →
      s1.pool.tasks.closed = true ∧ (s1.collected.length : Int) = K
        ∧ ∀ i, s1.pc ≠ CPc.collecting i := by
  simp only [State.collected, State.returned] at *
  cases h <;> simp_all [Worker.onAck] <;> omega

theorem Step.spawning {κ τ : Type} {K : Int} {s s1 : State κ τ} (h : Step s s1)
    (hc : s.pool.count = K) (hK : 0 ≤ K)
    (hs : ∀ i h g, s.pc = CPc.spawning i h g → 0 ≤ i ∧ i ≤ K) :
    ∀ i h g, s1.pc = CPc.spawning i h g → 0 ≤ i ∧ i ≤ K := by
  cases h <;> simp_all <;> first | assumption | omega

theorem chanInv_step {κ τ : Type} {K : Int} {s s1 : State κ τ} (hi : ChanInv K s)
    (h : Step s s1) : ChanInv K s1 where
  count := by rw [h.count_eq]; exact hi.count
  nonneg := hi.nonneg
  tasksCap := by rw [h.tasks_cap_eq]; exact hi.tasksCap
  ackCap := by rw [h.ack_cap_eq]; exact hi.ackCap
  ackOpen := by rw [h.ack_closed_eq]; exact hi.ackOpen
  bounded := h.bounded hi.bounded
  fifo := h.fifo hi.fifo
  ackFifo := h.ackFifo hi.ackOpen hi.ackFifo
  closedEvent := h.closedEvent hi.closedEvent
  beforeClose := h.beforeClose hi.beforeClose
  collecting := h.collecting hi.count hi.nonneg hi.ackOpen hi.beforeClose hi.collecting
  returned := h.returned hi.count hi.collecting hi.returned
  spawning := h.spawning hi.count hi.nonneg hi.spawning

/-- The channel invariant holds in every reachable state. -/
theorem chanInv_of_reachable {κ τ : Type} {K : Int} {lim : Limits} {p : Pool τ}
    (hp : New τ lim K = Except.ok p)
    {script : List (Call κ τ)} {s : State κ τ} (r : Reachable (State.init p script) s) :
    ChanInv K s := by
  induction r with
  | init => exact chanInv_init hp script
  | step _ hs ih => exact chanInv_step ih hs
/-! ## The worker invariant -/

theorem Step.running {κ τ : Type} {s s1 : State κ τ} (h : Step s s1)
    (hi : ∀ w ∈ s.workers, (w.pc = WPc.recv ∨ ∃ t, w.pc = WPc.handle t) → w.success = true) :
    ∀ w ∈ s1.workers, (w.pc = WPc.recv ∨ ∃ t, w.pc = WPc.handle t) → w.success = true := by
  cases h
  case spawn => exact forall_mem_snoc hi (by simp [Worker.spawn])
  case recvTask k w task rest hp hw hpc hb =>
    exact forall_mem_set hi (fun _ => by
      simpa [Worker.onRecv] using hi w (mem_of_getElem?_eq hw) (Or.inl hpc))
  case recvClosed k w hp hw hpc hb hc =>
    exact forall_mem_set hi (by simp [Worker.onRecv])
  case handle k w task hp hw hpc =>
    refine forall_mem_set hi ?_
    have hs := hi w (mem_of_getElem?_eq hw) (Or.inr ⟨task, hpc⟩)
    cases hr : w.handler w.context task <;> simp [Worker.onTask, hs, hr]
  case ack k w hp hw hpc ho hl =>
    exact forall_mem_set hi (by simp [Worker.onAck])
  all_goals exact hi

theorem Step.sawClosed {κ τ : Type} {s s1 : State κ τ} (h : Step s s1)
    (hi : ∀ w ∈ s.workers, (w.pc = WPc.ack ∨ w.pc = WPc.done) → w.success = true →
      s.pool.tasks.closed = true ∧ s.pool.tasks.buf = []) :
    ∀ w ∈ s1.workers, (w.pc = WPc.ack ∨ w.pc = WPc.done) → w.success = true →
      s1.pool.tasks.closed = true ∧ s1.pool.tasks.buf = [] := by
  cases h
  case spawn => exact forall_mem_snoc hi (by simp [Worker.spawn])
  case submit task rest hp hpc hs hc hl =>
    intro w hw hpcw hsw
    have := (hi w hw hpcw hsw).1
    simp [hc] at this
  case close rest hp hpc hs hc =>
    intro w hw hpcw hsw
    exact ⟨rfl, (hi w hw hpcw hsw).2⟩
  case recvTask k w task rest hp hw hpc hb =>
    refine forall_mem_set ?_ (by simp [Worker.onRecv])
    intro w1 hw1 hpc1 hs1
    have := (hi w1 hw1 hpc1 hs1).2
    simp [hb] at this
  case recvClosed k w hp hw hpc hb hc =>
    exact forall_mem_set hi (fun _ _ => ⟨hc, hb⟩)
  case handle k w task hp hw hpc =>
    refine forall_mem_set hi ?_
    cases hr : (if w.success = true then w.handler w.context task else false) <;>
      simp [Worker.onTask, hr]
  case ack k w hp hw hpc ho hl =>
    exact forall_mem_set hi (fun _ hs => hi w (mem_of_getElem?_eq hw) (Or.inl hpc) hs)
  all_goals exact hi

theorem Step.failed {κ τ : Type} {s s1 : State κ τ} (h : Step s s1)
    (hr : ∀ w ∈ s.workers, (w.pc = WPc.recv ∨ ∃ t, w.pc = WPc.handle t) → w.success = true)
    (hi : ∀ w ∈ s.workers, w.success = false → ∃ t, w.handler w.context t = false) :
    ∀ w ∈ s1.workers, w.success = false → ∃ t, w.handler w.context t = false := by
  cases h
  case spawn => exact forall_mem_snoc hi (by simp [Worker.spawn])
  case recvTask k w task rest hp hw hpc hb =>
    exact forall_mem_set hi (by simpa [Worker.onRecv] using hi w (mem_of_getElem?_eq hw))
  case recvClosed k w hp hw hpc hb hc =>
    exact forall_mem_set hi (by simpa [Worker.onRecv] using hi w (mem_of_getElem?_eq hw))
  case handle k w task hp hw hpc =>
    refine forall_mem_set hi ?_
    have hs := hr w (mem_of_getElem?_eq hw) (Or.inr ⟨task, hpc⟩)
    simp only [Worker.onTask, hs, if_true]
    intro hf
    exact ⟨task, hf⟩
  case ack k w hp hw hpc ho hl =>
    exact forall_mem_set hi (by simpa [Worker.onAck] using hi w (mem_of_getElem?_eq hw))
  all_goals exact hi

theorem Worker.onTask_isDone {κ τ : Type} (w : Worker κ τ) (t : τ) :
    (w.onTask t).1.isDone = false := by
  unfold Worker.onTask Worker.isDone
  cases (if w.success = true then w.handler w.context t else false) <;> rfl

theorem Worker.onTask_inHand {κ τ : Type} (w : Worker κ τ) (t : τ) :
    (w.onTask t).1.inHand = none := by
  unfold Worker.onTask Worker.inHand
  cases (if w.success = true then w.handler w.context t else false) <;> rfl

theorem Step.ackCount {κ τ : Type} {s s1 : State κ τ} (h : Step s s1)
    (hi : s.acks.length = s.workers.countP Worker.isDone) :
    s1.acks.length = s1.workers.countP Worker.isDone := by
  simp only [State.acks] at *
  cases h
  case spawn => simpa [Worker.spawn, Worker.isDone] using hi
  case recvTask k w task rest hp hw hpc hb =>
    have := countP_set_same Worker.isDone (w.onRecv (some task)) hw
      (by simp [Worker.isDone, Worker.onRecv, hpc])
    simpa [this] using hi
  case recvClosed k w hp hw hpc hb hc =>
    have := countP_set_same Worker.isDone (w.onRecv none) hw
      (by simp [Worker.isDone, Worker.onRecv, hpc])
    simpa [this] using hi
  case handle k w task hp hw hpc =>
    have := countP_set_same Worker.isDone (w.onTask task).1 hw
      (by rw [Worker.onTask_isDone]; simp [Worker.isDone, hpc])
    simpa [this] using hi
  case ack k w hp hw hpc ho hl =>
    have := countP_set_succ Worker.isDone (Worker.onAck w).1 hw
      (by simp [Worker.isDone, hpc]) (by simp [Worker.isDone, Worker.onAck])
    simp [Worker.onAck] at this ⊢
    rw [this, hi]
  all_goals simpa using hi

theorem Step.single {κ τ : Type} {s s1 : State κ τ} (h : Step s s1)
    (hr : ∀ w ∈ s.workers, (w.pc = WPc.recv ∨ ∃ t, w.pc = WPc.handle t) → w.success = true)
    (hi : s.workers.length ≤ 1 → s.received = s.invoked ++ s.workers.filterMap Worker.inHand) :
    s1.workers.length ≤ 1 → s1.received = s1.invoked ++ s1.workers.filterMap Worker.inHand := by
  simp only [State.received, State.invoked] at *
  cases h
  case spawn =>
    intro hlen
    simp only [List.length_append, List.length_singleton] at hlen
    have h0 : s.workers = [] := List.eq_nil_of_length_eq_zero (by omega)
    simpa [h0, Worker.spawn, Worker.inHand] using hi
  case recvTask k w task rest hp hw hpc hb =>
    intro hlen
    simp only [List.length_set] at hlen
    obtain ⟨hws, rfl⟩ := single_of_getElem? hlen hw
    simpa [hws, Worker.inHand, Worker.onRecv, hpc] using hi
  case recvClosed k w hp hw hpc hb hc =>
    intro hlen
    simp only [List.length_set] at hlen
    obtain ⟨hws, rfl⟩ := single_of_getElem? hlen hw
    simpa [hws, Worker.inHand, Worker.onRecv, hpc] using hi
  case handle k w task hp hw hpc =>
    intro hlen
    simp only [List.length_set] at hlen
    have hs := hr w (mem_of_getElem?_eq hw) (Or.inr ⟨task, hpc⟩)
    obtain ⟨hws, rfl⟩ := single_of_getElem? hlen hw
    have hh : List.filterMap Worker.inHand [(w.onTask task).1] = [] := by
      simp [List.filterMap, Worker.onTask_inHand]
    simpa [hws, Worker.inHand, hh, filterMap_invokedTask_onTask, hs, hpc] using hi
  case ack k w hp hw hpc ho hl =>
    intro hlen
    simp only [List.length_set] at hlen
    obtain ⟨hws, rfl⟩ := single_of_getElem? hlen hw
    simpa [hws, Worker.inHand, Worker.onAck, hpc] using hi
  all_goals simpa using hi

theorem Step.handPerm {κ τ : Type} {s s1 : State κ τ} (h : Step s s1)
    (hr : ∀ w ∈ s.workers, (w.pc = WPc.recv ∨ ∃ t, w.pc = WPc.handle t) → w.success = true)
    (hi : s.received.Perm (s.invoked ++ s.workers.filterMap Worker.inHand)) :
    s1.received.Perm (s1.invoked ++ s1.workers.filterMap Worker.inHand) := by
  simp only [State.received, State.invoked] at *
  cases h
  case spawn => simpa [Worker.spawn, Worker.inHand] using hi
  case recvTask k w task rest hp hw hpc hb =>
    have := filterMap_set_perm Worker.inHand s.workers k w (w.onRecv (some task)) hw
    have e1 : w.inHand = none := by simp [Worker.inHand, hpc]
    have e2 : (w.onRecv (some task)).inHand = some task := rfl
    rw [e1, e2] at this
    simp only [Option.toList_none, List.nil_append, Option.toList_some,
      List.singleton_append] at this
    simp only [List.filterMap_append, List.filterMap_cons, List.filterMap_nil,
      Event.receivedTask, Event.invokedTask, List.append_nil]
    refine List.perm_append_comm.trans ?_
    refine (List.Perm.cons task hi).trans ?_
    refine List.perm_middle.symm.trans ?_
    exact List.Perm.append_left _ this.symm
  case recvClosed k w hp hw hpc hb hc =>
    have := filterMap_set_perm Worker.inHand s.workers k w (w.onRecv none) hw
    have e1 : w.inHand = none := by simp [Worker.inHand, hpc]
    have e2 : (w.onRecv none).inHand = none := rfl
    rw [e1, e2] at this
    simp only [Option.toList_none, List.nil_append] at this
    exact hi.trans (List.Perm.append_left _ this.symm)
  case handle k w task hp hw hpc =>
    have := filterMap_set_perm Worker.inHand s.workers k w (w.onTask task).1 hw
    have e1 : w.inHand = some task := by simp [Worker.inHand, hpc]
    rw [e1, Worker.onTask_inHand] at this
    simp only [Option.toList_none, List.nil_append, Option.toList_some,
      List.singleton_append] at this
    have hs := hr w (mem_of_getElem?_eq hw) (Or.inr ⟨task, hpc⟩)
    simp only [List.filterMap_append, List.filterMap_map, filterMap_receivedTask_onTask,
      filterMap_invokedTask_onTask, hs, if_true, List.append_nil]
    refine hi.trans ?_
    refine (List.Perm.append_left _ this.symm).trans ?_
    rw [List.append_assoc]
    rfl
  case ack k w hp hw hpc ho hl =>
    have := filterMap_set_perm Worker.inHand s.workers k w (Worker.onAck w).1 hw
    have e1 : w.inHand = none := by simp [Worker.inHand, hpc]
    have e2 : (Worker.onAck w).1.inHand = none := rfl
    rw [e1, e2] at this
    simp only [Option.toList_none, List.nil_append] at this
    simp only [Worker.onAck, List.map_cons, List.map_nil, List.filterMap_append,
      List.filterMap_cons, List.filterMap_nil, Event.receivedTask, Event.invokedTask,
      List.append_nil]
    exact hi.trans (List.Perm.append_left _ this.symm)
  all_goals simpa using hi

theorem workInv_init {κ τ : Type} (p : Pool τ) (script : List (Call κ τ)) :
    WorkInv (State.init p script) := by
  constructor <;> simp [State.init, State.acks, State.received, State.invoked]

theorem workInv_step {κ τ : Type} {s s1 : State κ τ} (hi : WorkInv s) (h : Step s s1) :
    WorkInv s1 where
  running := h.running hi.running
  sawClosed := h.sawClosed hi.sawClosed
  failed := h.failed hi.running hi.failed
  ackCount := h.ackCount hi.ackCount
  handPerm := h.handPerm hi.running hi.handPerm
  single := h.single hi.running hi.single

/-- The worker invariant holds in every reachable state. -/
theorem workInv_of_reachable {κ τ : Type} {p : Pool τ} {script : List (Call κ τ)}
    {s : State κ τ} (r : Reachable (State.init p script) s) : WorkInv s := by
  induction r with
  | init => exact workInv_init p script
  | step _ hs ih => exact workInv_step ih hs
/-! ## Each worker's part of the trace -/

theorem filterMap_byWorker_generatedEvents {κ τ : Type} (k : Nat)
    (g : Option (TaskContextGenerator κ)) (i : Int) :
    (generatedEvents g i : List (Event κ τ)).filterMap (Event.byWorker k) = [] := by
  cases g <;> rfl

theorem filterMap_receivedBy_generatedEvents {κ τ : Type} (k : Nat)
    (g : Option (TaskContextGenerator κ)) (i : Int) :
    (generatedEvents g i : List (Event κ τ)).filterMap (Event.receivedBy k) = [] := by
  cases g <;> rfl

theorem getElem?_set_cases {α : Type} {l : List α} {k0 k : Nat} {v w : α}
    (h : (l.set k0 v)[k]? = some w) : (k0 = k ∧ w = v) ∨ (k0 ≠ k ∧ l[k]? = some w) := by
  by_cases hk : k0 = k
  · subst hk
    left
    have hlt : k0 < l.length := by
      have := (List.getElem?_eq_some.mp h).1
      simpa using this
    rw [List.getElem?_set_self hlt] at h
    exact ⟨rfl, (Option.some.inj h).symm⟩
  · right
    rw [List.getElem?_set_ne hk] at h
    exact ⟨hk, h⟩

theorem Worker.consistent_recv {κ τ : Type} {w : Worker κ τ} {rc : List τ}
    {tr : List (WEvent κ τ)} (hpc : w.pc = WPc.recv) :
    w.Consistent rc tr ↔
      (w.success = true ∧ tr = rc.map w.invocation ∧ ∀ t ∈ rc, w.handler w.context t = true) := by
  simp [Worker.Consistent, hpc]

theorem Worker.consistent_handle {κ τ : Type} {w : Worker κ τ} {rc : List τ}
    {tr : List (WEvent κ τ)} {task : τ} (hpc : w.pc = WPc.handle task) :
    w.Consistent rc tr ↔
      (w.success = true ∧ ∃ rc1, rc = rc1 ++ [task] ∧ tr = rc1.map w.invocation ∧
        ∀ u ∈ rc1, w.handler w.context u = true) := by
  simp [Worker.Consistent, hpc]

theorem Worker.consistent_ack {κ τ : Type} {w : Worker κ τ} {rc : List τ}
    {tr : List (WEvent κ τ)} (hpc : w.pc = WPc.ack) :
    w.Consistent rc tr ↔ (tr = rc.map w.invocation ∧ w.Stopped rc) := by
  simp [Worker.Consistent, hpc]

theorem Worker.consistent_done {κ τ : Type} {w : Worker κ τ} {rc : List τ}
    {tr : List (WEvent κ τ)} (hpc : w.pc = WPc.done) :
    w.Consistent rc tr ↔
      (tr = rc.map w.invocation ++ [WEvent.acknowledged w.success] ∧ w.Stopped rc) := by
  simp [Worker.Consistent, hpc]

/-- A step of a worker that leaves the trace parts of the others alone. -/
theorem traceInv_set {κ τ : Type} {s s1 : State κ τ} (hi : TraceInv s) {k0 : Nat}
    {w0 v : Worker κ τ} (hw0 : s.workers[k0]? = some w0)
    (hws : s1.workers = s.workers.set k0 v)
    (hother : ∀ k, k0 ≠ k → s1.receivedBy k = s.receivedBy k ∧ s1.trace k = s.trace k)
    (hself : w0.Consistent (s.receivedBy k0) (s.trace k0) →
      v.Consistent (s1.receivedBy k0) (s1.trace k0)) :
    TraceInv s1 := by
  intro k
  have hlt : k0 < s.workers.length := (List.getElem?_eq_some.mp hw0).1
  constructor
  · intro w hw
    rw [hws] at hw
    rcases getElem?_set_cases hw with ⟨rfl, rfl⟩ | ⟨hk, hw1⟩
    · exact hself ((hi k0).1 w0 hw0)
    · rw [(hother k hk).1, (hother k hk).2]
      exact (hi k).1 w hw1
  · intro hlen
    rw [hws, List.length_set] at hlen
    have hk : k0 ≠ k := by omega
    rw [(hother k hk).1, (hother k hk).2]
    exact (hi k).2 hlen

/-- A step of the caller that spawns nothing and records nothing of a worker. -/
theorem traceInv_caller {κ τ : Type} {s s1 : State κ τ} (hi : TraceInv s)
    (hws : s1.workers = s.workers)
    (hsame : ∀ k, s1.receivedBy k = s.receivedBy k ∧ s1.trace k = s.trace k) :
    TraceInv s1 := by
  intro k
  rw [hws, (hsame k).1, (hsame k).2]
  exact hi k

theorem Step.traceInv {κ τ : Type} {s s1 : State κ τ} (h : Step s s1) (hi : TraceInv s) :
    TraceInv s1 := by
  cases h
  case spawn i handler generator call rest hp hpc hs hlt =>
    intro k
    have hsame : ∀ k, State.receivedBy { s with
          workers := s.workers ++ [Worker.spawn i (contextFor generator i) handler],
          pc := CPc.spawning (i + 1) handler generator,
          events := s.events ++ generatedEvents generator i
            ++ [Event.spawned s.workers.length i (contextFor generator i)] } k
          = s.receivedBy k ∧
        State.trace { s with
          workers := s.workers ++ [Worker.spawn i (contextFor generator i) handler],
          pc := CPc.spawning (i + 1) handler generator,
          events := s.events ++ generatedEvents generator i
            ++ [Event.spawned s.workers.length i (contextFor generator i)] } k
          = s.trace k := by
      intro k
      simp [State.receivedBy, State.trace, filterMap_byWorker_generatedEvents,
        filterMap_receivedBy_generatedEvents]
    rw [(hsame k).1, (hsame k).2]
    constructor
    · intro w hw
      by_cases hk : k < s.workers.length
      · rw [List.getElem?_append_left hk] at hw
        exact (hi k).1 w hw
      · have hk2 : s.workers.length ≤ k := by omega
        obtain ⟨e1, e2⟩ := (hi k).2 hk2
        rw [List.getElem?_append_right hk2] at hw
        cases hk3 : k - s.workers.length with
        | zero =>
          rw [hk3] at hw
          simp only [List.getElem?_cons_zero, Option.some.injEq] at hw
          subst hw
          simp [Worker.Consistent, Worker.spawn, e1, e2]
        | succ m =>
          rw [hk3] at hw
          simp at hw
    · intro hlen
      simp only [List.length_append, List.length_singleton] at hlen
      exact (hi k).2 (by omega)
  case recvTask k0 w0 task rest hp hw0 hpc hb =>
    refine traceInv_set hi hw0 rfl ?_ ?_
    · intro k hk
      simp [State.receivedBy, State.trace, hk]
    · intro hc
      rw [Worker.consistent_recv hpc] at hc
      obtain ⟨c1, c2, c3⟩ := hc
      have hrc : State.receivedBy { s with
            pool := { s.pool with tasks := { s.pool.tasks with buf := rest } },
            workers := s.workers.set k0 (w0.onRecv (some task)),
            events := s.events ++ [Event.received k0 task] } k0
          = s.receivedBy k0 ++ [task] := by
        simp [State.receivedBy]
      have htr : State.trace { s with
            pool := { s.pool with tasks := { s.pool.tasks with buf := rest } },
            workers := s.workers.set k0 (w0.onRecv (some task)),
            events := s.events ++ [Event.received k0 task] } k0
          = s.trace k0 := by
        simp [State.trace]
      rw [hrc, htr, Worker.consistent_handle
        (rfl : (w0.onRecv (some task)).pc = WPc.handle task)]
      exact ⟨c1, s.receivedBy k0, rfl, c2, c3⟩
  case recvClosed k0 w0 hp hw0 hpc hb hcl =>
    refine traceInv_set hi hw0 rfl ?_ ?_
    · intro k hk
      exact ⟨rfl, rfl⟩
    · intro hc
      rw [Worker.consistent_recv hpc] at hc
      obtain ⟨c1, c2, c3⟩ := hc
      have e : ∀ rc tr, (w0.onRecv none).Consistent rc tr ↔
          (tr = rc.map w0.invocation ∧ w0.Stopped rc) := fun rc tr =>
        Worker.consistent_ack (w := w0.onRecv none) rfl
      exact (e _ _).mpr ⟨c2, Or.inl ⟨c1, c3⟩⟩
  case handle k0 w0 task hp hw0 hpc =>
    refine traceInv_set hi hw0 rfl ?_ ?_
    · intro k hk
      unfold Worker.onTask
      split <;> simp [State.receivedBy, State.trace, hk]
    · intro hc
      rw [Worker.consistent_handle hpc] at hc
      obtain ⟨c1, rc1, c2, c3, c4⟩ := hc
      have hrc : State.receivedBy { s with
            workers := s.workers.set k0 (w0.onTask task).1,
            events := s.events ++ (w0.onTask task).2.map (Event.worker k0 w0.id) } k0
          = rc1 ++ [task] := by
        rw [← c2]
        unfold Worker.onTask
        split <;> simp [State.receivedBy]
      have htr : State.trace { s with
            workers := s.workers.set k0 (w0.onTask task).1,
            events := s.events ++ (w0.onTask task).2.map (Event.worker k0 w0.id) } k0
          = (rc1 ++ [task]).map w0.invocation := by
        have : s.events.filterMap (Event.byWorker k0) = rc1.map w0.invocation := c3
        simp [State.trace, Worker.onTask, c1, List.filterMap_append, this, Worker.invocation]
      rw [hrc, htr]
      have hall : w0.handler w0.context task = true →
          ∀ t ∈ rc1 ++ [task], w0.handler w0.context t = true := by
        intro hr t ht
        rcases List.mem_append.mp ht with h1 | h1
        · exact c4 t h1
        · rw [List.mem_singleton] at h1
          rw [h1]; exact hr
      cases hr : w0.handler w0.context task with
      | true =>
        have hv : (w0.onTask task).1 = { w0 with success := true, pc := WPc.recv } := by
          simp [Worker.onTask, c1, hr]
        rw [hv, Worker.consistent_recv rfl]
        exact ⟨rfl, rfl, hall hr⟩
      | false =>
        have hv : (w0.onTask task).1 = { w0 with success := false, pc := WPc.ack } := by
          simp [Worker.onTask, c1, hr]
        rw [hv, Worker.consistent_ack rfl]
        exact ⟨rfl, Or.inr ⟨rfl, rc1, task, rfl, c4, hr⟩⟩
  case ack k0 w0 hp hw0 hpc ho hl =>
    refine traceInv_set hi hw0 rfl ?_ ?_
    · intro k hk
      simp [State.receivedBy, State.trace, Worker.onAck, hk]
    · intro hc
      rw [Worker.consistent_ack hpc] at hc
      obtain ⟨c1, c2⟩ := hc
      have hrc : State.receivedBy { s with
            pool := { s.pool with acknowledge :=
              { s.pool.acknowledge with buf := s.pool.acknowledge.buf ++ [w0.success] } },
            workers := s.workers.set k0 (Worker.onAck w0).1,
            events := s.events ++ (Worker.onAck w0).2.map (Event.worker k0 w0.id) } k0
          = s.receivedBy k0 := by
        simp [State.receivedBy, Worker.onAck]
      have htr : State.trace { s with
            pool := { s.pool with acknowledge :=
              { s.pool.acknowledge with buf := s.pool.acknowledge.buf ++ [w0.success] } },
            workers := s.workers.set k0 (Worker.onAck w0).1,
            events := s.events ++ (Worker.onAck w0).2.map (Event.worker k0 w0.id) } k0
          = s.trace k0 ++ [WEvent.acknowledged w0.success] := by
        simp [State.trace, Worker.onAck]
      rw [hrc, htr]
      have e : ∀ rc tr, (Worker.onAck w0).1.Consistent rc tr ↔
          (tr = rc.map w0.invocation ++ [WEvent.acknowledged w0.success] ∧ w0.Stopped rc) :=
        fun rc tr => Worker.consistent_done (w := (Worker.onAck w0).1) rfl
      exact (e _ _).mpr ⟨by rw [c1], c2⟩
  all_goals
    refine traceInv_caller hi rfl ?_
    intro k
    simp [State.receivedBy, State.trace]

theorem traceInv_of_reachable {κ τ : Type} {p : Pool τ} {script : List (Call κ τ)}
    {s : State κ τ} (r : Reachable (State.init p script) s) : TraceInv s := by
  induction r with
  | init =>
    intro k
    simp [State.init, State.receivedBy, State.trace]
  | step _ hs ih => exact hs.traceInv ih
/-! ## The worker loop run alone -/

theorem handledTasks_all_true {κ τ : Type} (handler : TaskHandler κ τ) (context : Option κ)
    (queue : List τ) (h : ∀ t ∈ queue, handler context t = true) :
    handledTasks handler context queue = queue := by
  induction queue with
  | nil => rfl
  | cons t rest ih =>
    have ht := h t (List.mem_cons_self t rest)
    simp [handledTasks, ht, ih (fun x hx => h x (List.mem_cons_of_mem t hx))]

theorem handledTasks_first_false {κ τ : Type} (handler : TaskHandler κ τ) (context : Option κ)
    (pre : List τ) (task : τ) (post : List τ) (hpre : ∀ t ∈ pre, handler context t = true)
    (ht : handler context task = false) :
    handledTasks handler context (pre ++ task :: post) = pre ++ [task] := by
  induction pre with
  | nil => simp [handledTasks, ht]
  | cons t rest ih =>
    have h1 := hpre t (List.mem_cons_self t rest)
    simp [handledTasks, h1, ih (fun x hx => hpre x (List.mem_cons_of_mem t hx))]

/-- The run of the loop from a frame at its receive with `success` set, in
closed form. -/
theorem Worker.run_eq {κ τ : Type} (w : Worker κ τ) (hs : w.success = true) (queue : List τ) :
    w.run queue =
      (handledTasks w.handler w.context queue).map
          (fun t => WEvent.invoked w.context t (w.handler w.context t))
        ++ [WEvent.acknowledged (queue.all (w.handler w.context))] := by
  induction queue generalizing w with
  | nil => simp [Worker.run, Worker.onAck, Worker.onRecv, handledTasks, hs]
  | cons t rest ih =>
    cases hr : w.handler w.context t with
    | false =>
      simp [Worker.run, Worker.onAck, Worker.onRecv, Worker.onTask, handledTasks, hs, hr]
    | true =>
      have := ih { w with success := true, pc := WPc.recv } rfl
      simp [Worker.run, Worker.onRecv, Worker.onTask, handledTasks, hs, hr, this]

theorem worker_eq {κ τ : Type} (id : Int) (queue : List τ) (context : Option κ)
    (handler : TaskHandler κ τ) :
    worker id queue context handler =
      (handledTasks handler context queue).map (fun t => WEvent.invoked context t (handler context t))
        ++ [WEvent.acknowledged (queue.all (handler context))] :=
  Worker.run_eq (Worker.spawn id context handler) rfl queue

theorem handledTasks_getLast {κ τ : Type} (handler : TaskHandler κ τ) (context : Option κ)
    (queue : List τ) (h : queue.all (handler context) = false) :
    ∃ t, (handledTasks handler context queue).getLast? = some t ∧ handler context t = false := by
  induction queue with
  | nil => simp at h
  | cons t rest ih =>
    cases ht : handler context t with
    | false => exact ⟨t, by simp [handledTasks, ht], ht⟩
    | true =>
      have hrest : rest.all (handler context) = false := by
        simpa [List.all_cons, ht] using h
      obtain ⟨u, hu, hf⟩ := ih hrest
      refine ⟨u, ?_, hf⟩
      simp only [handledTasks, ht, if_true]
      cases hh : handledTasks handler context rest with
      | nil => simp [hh] at hu
      | cons x xs =>
        rw [hh] at hu
        simpa [List.getLast?_cons_cons] using hu

theorem filterMap_ackValue_invocations {κ τ : Type} (context : Option κ)
    (handler : TaskHandler κ τ) (l : List τ) :
    (l.map (fun t => WEvent.invoked context t (handler context t))).filterMap WEvent.ackValue
      = [] := by
  induction l with
  | nil => rfl
  | cons t rest ih => simp

/-- A worker that left its loop handled everything it received, and its
`success` is the conjunction of the handler's results. -/
theorem Worker.Stopped.closed_form {κ τ : Type} {w : Worker κ τ} {rc : List τ}
    (h : w.Stopped rc) :
    handledTasks w.handler w.context rc = rc ∧ rc.all (w.handler w.context) = w.success := by
  rcases h with ⟨hs, hall⟩ | ⟨hs, rc1, t, rfl, hall, hf⟩
  · refine ⟨handledTasks_all_true _ _ _ hall, ?_⟩
    rw [hs, List.all_eq_true]
    exact hall
  · refine ⟨handledTasks_first_false _ _ rc1 t [] hall hf, ?_⟩
    rw [hs]
    simp [hf]

/-- What a worker did agrees with `worker` run on what it received: all of it
once it has returned, an initial part without acknowledgment before. -/
theorem Worker.Consistent.refines {κ τ : Type} {w : Worker κ τ} {rc : List τ}
    {tr : List (WEvent κ τ)} (h : w.Consistent rc tr) :
    (w.isDone = true → tr = worker w.id rc w.context w.handler) ∧
    (w.isDone = false →
      tr.filterMap WEvent.ackValue = [] ∧ tr <+: worker w.id rc w.context w.handler) := by
  rw [worker_eq]
  cases hpc : w.pc with
  | recv =>
    rw [Worker.consistent_recv hpc] at h
    obtain ⟨_, h2, h3⟩ := h
    refine ⟨by simp [Worker.isDone, hpc], fun _ => ?_⟩
    rw [h2, handledTasks_all_true _ _ _ h3]
    exact ⟨filterMap_ackValue_invocations _ _ _, List.prefix_append _ _⟩
  | handle task =>
    rw [Worker.consistent_handle hpc] at h
    obtain ⟨_, rc1, h2, h3, h4⟩ := h
    refine ⟨by simp [Worker.isDone, hpc], fun _ => ?_⟩
    have hh : handledTasks w.handler w.context rc = rc1 ++ [task] := by
      rw [h2]
      cases hr : w.handler w.context task with
      | true =>
        apply handledTasks_all_true
        intro t ht
        rcases List.mem_append.mp ht with h1 | h1
        · exact h4 t h1
        · rw [List.mem_singleton] at h1
          rw [h1]; exact hr
      | false => exact handledTasks_first_false _ _ rc1 task [] h4 hr
    rw [h3, hh, List.map_append, List.append_assoc]
    exact ⟨filterMap_ackValue_invocations _ _ _, List.prefix_append _ _⟩
  | ack =>
    rw [Worker.consistent_ack hpc] at h
    obtain ⟨h2, h3⟩ := h
    refine ⟨by simp [Worker.isDone, hpc], fun _ => ?_⟩
    rw [h2, h3.closed_form.1]
    exact ⟨filterMap_ackValue_invocations _ _ _, List.prefix_append _ _⟩
  | done =>
    rw [Worker.consistent_done hpc] at h
    obtain ⟨h2, h3⟩ := h
    refine ⟨fun _ => ?_, by simp [Worker.isDone, hpc]⟩
    rw [h2, h3.closed_form.1, h3.closed_form.2]
    rfl

/-- Once a worker's handler has returned false, the worker is out of its
loop with `success` false, and that invocation is the last thing it did but
for the acknowledgment. -/
theorem Worker.Consistent.after_false {κ τ : Type} {w : Worker κ τ} {rc : List τ}
    {tr : List (WEvent κ τ)} (h : w.Consistent rc tr) {c : Option κ} {t : τ}
    (hm : WEvent.invoked c t false ∈ tr) :
    (w.pc = WPc.ack ∨ w.pc = WPc.done) ∧ w.success = false ∧
    ∃ rc1, rc = rc1 ++ [t] ∧
      tr = rc1.map (fun u => WEvent.invoked c u true) ++ WEvent.invoked c t false
        :: (if w.isDone then [WEvent.acknowledged false] else []) := by
  have hno : ∀ l : List τ, (∀ u ∈ l, w.handler w.context u = true) →
      WEvent.invoked c t false ∉ l.map w.invocation := by
    intro l hl hmem
    obtain ⟨u, hu, e⟩ := List.mem_map.mp hmem
    simp only [Worker.invocation, WEvent.invoked.injEq] at e
    rw [hl u hu] at e
    exact absurd e.2.2 (by decide)
  have hstop : ∀ (tail : List (WEvent κ τ)), w.Stopped rc →
      WEvent.invoked c t false ∈ rc.map w.invocation →
      w.success = false ∧ ∃ rc1, rc = rc1 ++ [t] ∧
        rc.map w.invocation ++ tail
          = rc1.map (fun u => WEvent.invoked c u true) ++ WEvent.invoked c t false :: tail := by
    intro tail hs hmem
    rcases hs with ⟨_, hall⟩ | ⟨hs, rc1, t1, rfl, hall, hf⟩
    · exact absurd hmem (hno rc hall)
    · rw [List.map_append, List.mem_append] at hmem
      rcases hmem with h1 | h1
      · exact absurd h1 (hno rc1 hall)
      · simp only [List.map_cons, List.map_nil, List.mem_singleton, Worker.invocation,
          WEvent.invoked.injEq] at h1
        obtain ⟨rfl, rfl, _⟩ := h1
        refine ⟨hs, rc1, rfl, ?_⟩
        have : rc1.map w.invocation = rc1.map (fun u => WEvent.invoked w.context u true) := by
          apply List.map_congr_left
          intro u hu
          simp [Worker.invocation, hall u hu]
        simp [this, Worker.invocation, hf]
  cases hpc : w.pc with
  | recv =>
    rw [Worker.consistent_recv hpc] at h
    obtain ⟨_, h2, h3⟩ := h
    rw [h2] at hm
    exact absurd hm (hno rc h3)
  | handle task =>
    rw [Worker.consistent_handle hpc] at h
    obtain ⟨_, rc1, _, h3, h4⟩ := h
    rw [h3] at hm
    exact absurd hm (hno rc1 h4)
  | ack =>
    rw [Worker.consistent_ack hpc] at h
    obtain ⟨h2, h3⟩ := h
    rw [h2] at hm
    obtain ⟨hs, rc1, e1, e2⟩ := hstop [] h3 hm
    refine ⟨Or.inl rfl, hs, rc1, e1, ?_⟩
    rw [h2]
    simpa [Worker.isDone, hpc] using e2
  | done =>
    rw [Worker.consistent_done hpc] at h
    obtain ⟨h2, h3⟩ := h
    have hm1 : WEvent.invoked c t false ∈ rc.map w.invocation := by
      rw [h2, List.mem_append] at hm
      rcases hm with h1 | h1
      · exact h1
      · simp at h1
    obtain ⟨hs, rc1, e1, e2⟩ := hstop [WEvent.acknowledged w.success] h3 hm1
    refine ⟨Or.inr rfl, hs, rc1, e1, ?_⟩
    rw [h2, e2]
    simp [Worker.isDone, hpc, hs]
/-! ## Construction -/

theorem makeChan_error {α : Type} {limit : Nat} {size : Int}
    (h : size < 0 ∨ (limit : Int) < size) :
    makeChan α limit size = Except.error Panic.makechanSizeOutOfRange := by
  unfold makeChan
  cases size with
  | negSucc m => rfl
  | ofNat n =>
    have : limit < n := by
      simp only [Int.ofNat_eq_coe] at h
      omega
    simp [this]

theorem makeChan_fits {α : Type} {limit : Nat} {size : Int} (h0 : 0 ≤ size)
    (h1 : size ≤ limit) :
    makeChan α limit size = Except.ok { buf := [], cap := size.toNat, closed := false } := by
  unfold makeChan
  cases size with
  | negSucc m => exact absurd h0 (by simp)
  | ofNat n =>
    have : ¬ limit < n := by
      have : (n : Int) ≤ limit := h1
      omega
    simp [this]

theorem makeChan_panic {α : Type} {limit : Nat} {size : Int} {e : Panic}
    (h : makeChan α limit size = Except.error e) : e = Panic.makechanSizeOutOfRange := by
  unfold makeChan at h
  cases size with
  | negSucc m =>
    cases h
    rfl
  | ofNat n =>
    simp only at h
    split at h
    · cases h
      rfl
    · cases h

/-- C9, as the code has it: `New` checks nothing itself and fails exactly
when one of its two `make` calls panics. On a platform with the limits `lim`:
a negative `numWorkers` makes `make(chan bool, numWorkers)` panic, and so does
one above the largest size the platform accepts, and no pool is returned;
where the task queue of 10000 can be allocated, zero and every positive value
within the limit return a pool with that `count`, a task queue of capacity
10000 and an acknowledge channel of capacity `numWorkers`. -/
theorem New_fails_exactly_when_make_panics (τ : Type) (lim : Limits) (n : Int) :
    (n < 0 → New τ lim n = Except.error Panic.makechanSizeOutOfRange) ∧
    ((lim.acks : Int) < n → New τ lim n = Except.error Panic.makechanSizeOutOfRange) ∧
    (lim.tasks < 10000 → New τ lim n = Except.error Panic.makechanSizeOutOfRange) ∧
    (10000 ≤ lim.tasks → 0 ≤ n → n ≤ (lim.acks : Int) → New τ lim n = Except.ok
      { count := n, tasks := { buf := [], cap := 10000, closed := false },
        acknowledge := { buf := [], cap := n.toNat, closed := false } }) := by
  have hbad : (n < 0 ∨ (lim.acks : Int) < n) →
      New τ lim n = Except.error Panic.makechanSizeOutOfRange := by
    intro h
    unfold New
    cases ht : makeChan τ lim.tasks 10000 with
    | error e =>
      rw [makeChan_panic ht]
    | ok tasks =>
      simp only []
      rw [makeChan_error h]
  refine ⟨fun h => hbad (Or.inl h), fun h => hbad (Or.inr h), ?_, ?_⟩
  · intro h
    unfold New
    rw [makeChan_error (Or.inr (by omega))]
  · intro ht h0 h1
    unfold New
    rw [makeChan_fits (by omega) (by omega), makeChan_fits h0 h1]
    simp

/-- C9 fails at zero: `New(0)` returns a pool, so not every non-positive
`numWorkers` is rejected at construction. -/
theorem New_zero_returns_pool :
    New Nat exampleLimits 0 = Except.ok
      { count := 0, tasks := { buf := [], cap := 10000, closed := false },
        acknowledge := { buf := [], cap := 0, closed := false } } ∧
    ¬ (∀ n : Int, n ≤ 0 → ∃ e, New Nat exampleLimits n = Except.error e) := by
  have h0 : New Nat exampleLimits 0 = Except.ok
      { count := 0, tasks := { buf := [], cap := 10000, closed := false },
        acknowledge := { buf := [], cap := 0, closed := false } } := by
    unfold New
    rw [makeChan_fits (by omega) (by simp [exampleLimits]),
      makeChan_fits (le_refl 0) (by simp [exampleLimits])]
    simp
  refine ⟨h0, ?_⟩
  intro h
  obtain ⟨e, he⟩ := h 0 (le_refl 0)
  rw [h0] at he
  cases he

/-! ## Submitting to a closed queue -/

/-- C7: once `WaitForCompletion` has closed the task queue, `Submit` fails
with the runtime panic of a send on a closed channel, whatever the queue
holds: the task is not enqueued, no submission is recorded, the queue and
the rest of the state are as before, and the panic stops the program. -/
theorem Submit_after_close_panics {κ τ : Type} {K : Int} {lim : Limits} {p : Pool τ}
    (hp : New τ lim K = Except.ok p) {script : List (Call κ τ)} {sched : List Actor}
    {s : State κ τ} (hr : run sched (State.init p script) = some s)
    (hc : Event.closed ∈ s.events) (task : τ) (rest : List (Call κ τ)) :
    Submit s task rest = some { s with panic := some Panic.sendOnClosedChannel } ∧
    (s.panic = none → s.pc = CPc.idle → s.script = Call.submit task :: rest →
      step Actor.caller s = some { s with panic := some Panic.sendOnClosedChannel }) ∧
    (∀ a, step a { s with panic := some Panic.sendOnClosedChannel } = none) := by
  have hi := chanInv_of_reachable hp (Reachable.of_run hr)
  have hclosed : s.pool.tasks.closed = true := hi.closedEvent.mpr hc
  have hsub : Submit s task rest = some { s with panic := some Panic.sendOnClosedChannel } := by
    simp [Submit, Chan.send, hclosed]
  refine ⟨hsub, ?_, ?_⟩
  · intro h1 h2 h3
    simp [step, callerStep, h1, h2, h3, hsub]
  · intro a
    simp [step]

/-! ## The bounded queue -/

/-- Submitting `ts` one after the other into a queue with room for all of
them: every call completes and the tasks are appended in order. -/
theorem run_submits {κ τ : Type} (ts : List τ) (rest : List (Call κ τ)) (s : State κ τ)
    (hp : s.panic = none) (hpc : s.pc = CPc.idle) (hc : s.pool.tasks.closed = false)
    (hs : s.script = ts.map Call.submit ++ rest)
    (hl : s.pool.tasks.buf.length + ts.length ≤ s.pool.tasks.cap) :
    run (List.replicate ts.length Actor.caller) s = some { s with
      pool := { s.pool with tasks := { s.pool.tasks with buf := s.pool.tasks.buf ++ ts } },
      script := rest,
      events := s.events ++ ts.map Event.submitted } := by
  induction ts generalizing s with
  | nil =>
    simp only [List.map_nil, List.nil_append] at hs
    simp [run, ← hs]
  | cons t ts ih =>
    simp only [List.map_cons, List.cons_append] at hs
    simp only [List.length_cons] at hl
    have hlt : s.pool.tasks.buf.length < s.pool.tasks.cap := by omega
    have h1 : step Actor.caller s = some { s with
        pool := { s.pool with tasks := { s.pool.tasks with buf := s.pool.tasks.buf ++ [t] } },
        script := ts.map Call.submit ++ rest,
        events := s.events ++ [Event.submitted t] } := by
      simp [step, callerStep, hp, hpc, hs, Submit, Chan.send, hc, hlt]
    simp only [List.length_cons, List.replicate_succ, run, h1]
    rw [ih]
    · simp
    · exact hp
    · exact hpc
    · exact hc
    · rfl
    · simp only [List.length_append, List.length_singleton]
      omega

/-- C8: the task queue is a FIFO bounded by 10000. On a fresh pool whose
caller only submits, the first 10000 (or fewer) calls of `Submit` all
complete and the queue then holds the tasks in submission order, no worker
having been started. In every reachable state the queue holds at most 10000
tasks; on an open queue `Submit` blocks exactly when the queue holds 10000
tasks, leaving the state as it is, and completes by appending at the tail as
soon as there is room; and only an action of a worker makes the queue
shorter. -/
theorem tasks_bounded_fifo {κ τ : Type} {K : Int} {lim : Limits} {p : Pool τ}
    (hp : New τ lim K = Except.ok p) :
    (∀ (ts : List τ) (rest : List (Call κ τ)), ts.length ≤ 10000 →
      ∃ s, run (List.replicate ts.length Actor.caller)
          (State.init p (ts.map Call.submit ++ rest)) = some s ∧
        s.pool.tasks.buf = ts ∧ s.submitted = ts ∧ s.script = rest ∧ s.workers = [] ∧
        s.panic = none ∧
        (ts.length = 10000 → ∀ t rest1, rest = Call.submit t :: rest1 →
          step Actor.caller s = none)) ∧
    (∀ (script : List (Call κ τ)) (sched : List Actor) (s : State κ τ),
      run sched (State.init p script) = some s →
        s.pool.tasks.cap = 10000 ∧ s.pool.tasks.buf.length ≤ 10000 ∧
        ∀ (t : τ) (rest : List (Call κ τ)), s.pool.tasks.closed = false →
          (s.pool.tasks.buf.length = 10000 → Submit s t rest = none) ∧
          (s.pool.tasks.buf.length < 10000 → Submit s t rest = some { s with
            pool := { s.pool with tasks := { s.pool.tasks with buf := s.pool.tasks.buf ++ [t] } },
            script := rest,
            events := s.events ++ [Event.submitted t] }) ∧
          (∀ a s1, step a s = some s1 →
            s1.pool.tasks.buf.length < s.pool.tasks.buf.length → ∃ k, a = Actor.worker k)) := by
  obtain ⟨hK, rfl⟩ := New_ok hp
  constructor
  · intro ts rest hlen
    refine ⟨_, run_submits ts rest (State.init _ _) rfl rfl rfl rfl (by simpa [State.init] using hlen),
      ?_, ?_, rfl, rfl, rfl, ?_⟩
    · simp [State.init]
    · simp only [State.submitted, State.init, List.nil_append]
      exact filterMap_submittedTask_map ts
    · intro hfull t rest1 hrest
      simp [step, callerStep, State.init, hrest, Submit, Chan.send, hfull]
  · intro script sched s hr
    have hi := chanInv_of_reachable hp (Reachable.of_run hr)
    have hb := hi.bounded
    rw [hi.tasksCap] at hb
    refine ⟨hi.tasksCap, hb, ?_⟩
    intro t rest hc
    constructor
    · intro hfull
      simp [Submit, Chan.send, hc, hi.tasksCap, hfull]
    · constructor
      · intro hlt
        simp [Submit, Chan.send, hc, hi.tasksCap, hlt]
      · intro a s1 hstep hlt
        cases a with
        | caller =>
          have := caller_step_buf hstep
          omega
        | worker k => exact ⟨k, rfl⟩

/-! ## Waiting for completion -/

/-- C3: `WaitForCompletion` never returns early. While the caller is in its
loop the queue has already been closed and the loop variable is the number of
acknowledgments collected so far; its next action is the return exactly when
that number is `K`, and otherwise it can only collect one more; in every state
in which the call has returned the queue is closed, exactly `K`
acknowledgments have been collected and the workers have produced at least
`K`. -/
theorem WaitForCompletion_never_early {κ τ : Type} {K : Int} {lim : Limits} {p : Pool τ}
    (hp : New τ lim K = Except.ok p) {script : List (Call κ τ)} {sched : List Actor}
    {s : State κ τ} (hr : run sched (State.init p script) = some s) :
    (∀ i, s.pc = CPc.collecting i →
      Event.closed ∈ s.events ∧ s.pool.tasks.closed = true ∧
      (s.collected.length : Int) = i ∧ i ≤ K ∧ ¬ s.returned ∧
      ∀ call rest, s.script = call :: rest → s.panic = none →
        (i = K → step Actor.caller s = some
          { s with script := rest, pc := CPc.idle, events := s.events ++ [Event.returned] }) ∧
        (i ≠ K → ∀ s1, step Actor.caller s = some s1 →
          ¬ s1.returned ∧ s1.pc = CPc.collecting (i + 1) ∧
          s1.collected.length = s.collected.length + 1)) ∧
    (s.returned →
      Event.closed ∈ s.events ∧ s.pool.tasks.closed = true ∧
      (s.collected.length : Int) = K ∧ K ≤ (s.acks.length : Int)) := by
  have hi := chanInv_of_reachable hp (Reachable.of_run hr)
  constructor
  · intro i hpc
    obtain ⟨h1, h2, h3, h4⟩ := hi.collecting i hpc
    refine ⟨hi.closedEvent.mp h1, h1, h2, h3, h4, ?_⟩
    intro call rest hs hpanic
    constructor
    · intro hiK
      have : ¬ i < s.pool.count := by rw [hi.count]; omega
      simp [step, callerStep, hpanic, hs, hpc, waitLoop, this]
    · intro hne s1 hstep
      have hlt : i < s.pool.count := by rw [hi.count]; omega
      simp only [step, callerStep, hpanic, hs, hpc, waitLoop, hlt, if_true, Chan.recv,
        hi.ackOpen] at hstep
      cases hb : s.pool.acknowledge.buf with
      | nil => simp [hb] at hstep
      | cons b bs =>
        simp only [hb, Option.some.injEq] at hstep
        subst hstep
        simp only [State.returned, State.collected] at h4 ⊢
        simp [h4]
  · intro hret
    obtain ⟨h1, h2, _⟩ := hi.returned hret
    refine ⟨hi.closedEvent.mp h1, h1, h2, ?_⟩
    have := congrArg List.length hi.ackFifo
    simp only [List.length_append] at this
    omega

/-! ## A pool without workers -/

/-- With `count = 0` nothing is ever spawned, received, handled or
acknowledged. -/
theorem no_workers_step {κ τ : Type} {s s1 : State κ τ} (hi : ChanInv 0 s) (h : Step s s1)
    (h0 : s.workers = [] ∧ s.received = [] ∧ s.invoked = [] ∧ s.acks = []) :
    s1.workers = [] ∧ s1.received = [] ∧ s1.invoked = [] ∧ s1.acks = [] := by
  obtain ⟨hw, hr, hv, ha⟩ := h0
  simp only [State.received, State.invoked, State.acks] at *
  have hc := hi.count
  cases h
  case spawn i handler generator call rest hp hpc hs hlt =>
    have := (hi.spawning i handler generator hpc).1
    omega
  case recvTask k w task rest hp hw1 hpc hb => simp [hw] at hw1
  case recvClosed k w hp hw1 hpc hb hc => simp [hw] at hw1
  case handle k w task hp hw1 hpc => simp [hw] at hw1
  case ack k w hp hw1 hpc ho hl => simp [hw] at hw1
  all_goals simp [hw, hr, hv, ha]

theorem no_workers {κ τ : Type} {lim : Limits} {p : Pool τ}
    (hp : New τ lim 0 = Except.ok p)
    {script : List (Call κ τ)} {s : State κ τ} (r : Reachable (State.init p script) s) :
    s.workers = [] ∧ s.received = [] ∧ s.invoked = [] ∧ s.acks = [] := by
  induction r with
  | init => simp [State.init, State.received, State.invoked, State.acks]
  | step r hs ih => exact no_workers_step (chanInv_of_reachable hp r) hs ih

/-- C10, as the code has it: on a pool with `count = 0` no worker is ever
spawned, no task is received or handled and nothing is acknowledged; and
`WaitForCompletion` never waits: called on the open queue it closes it and
returns at its next action, whether or not tasks were submitted, leaving what
was submitted in the queue. -/
theorem WaitForCompletion_zero_workers {κ τ : Type} {lim : Limits} {p : Pool τ}
    (hp : New τ lim 0 = Except.ok p) {script : List (Call κ τ)} {sched : List Actor}
    {s : State κ τ} (hr : run sched (State.init p script) = some s) :
    s.workers = [] ∧ s.invoked = [] ∧ s.acks = [] ∧ s.pool.tasks.buf = s.submitted ∧
    ∀ rest, s.panic = none → s.pc = CPc.idle → s.script = Call.waitForCompletion :: rest →
      s.pool.tasks.closed = false →
      ∃ s1 s2, step Actor.caller s = some s1 ∧ step Actor.caller s1 = some s2 ∧
        s2.returned ∧ s2.script = rest ∧ s2.pc = CPc.idle ∧ s2.panic = none ∧
        s2.pool.tasks.buf = s.submitted ∧ s2.invoked = [] ∧ s2.acks = [] := by
  have hi := chanInv_of_reachable hp (Reachable.of_run hr)
  obtain ⟨hw, hrc, hv, ha⟩ := no_workers hp (Reachable.of_run hr)
  have hbuf : s.pool.tasks.buf = s.submitted := by
    have := hi.fifo
    rw [hrc] at this
    simpa using this.symm
  refine ⟨hw, hv, ha, hbuf, ?_⟩
  intro rest hpanic hpc hs hc
  have hcount : ¬ (0 : Int) < s.pool.count := by rw [hi.count]; omega
  have hcl : waitClose s = { s with
      pool := { s.pool with tasks := { s.pool.tasks with closed := true } },
      pc := CPc.collecting 0,
      events := s.events ++ [Event.closed] } := by
    simp [waitClose, Chan.close, hc]
  have h1 : step Actor.caller s = some (waitClose s) := by
    simp [step, callerStep, hpanic, hpc, hs]
  have h2 : step Actor.caller (waitClose s) = some { (waitClose s) with
      script := rest, pc := CPc.idle, events := (waitClose s).events ++ [Event.returned] } := by
    rw [hcl]
    simp [step, callerStep, hpanic, hs, waitLoop, hcount]
  refine ⟨_, _, h1, h2, ?_⟩
  rw [hcl]
  simp only [State.invoked, State.acks] at hv ha
  simp [State.returned, hpanic, hbuf, State.invoked, State.acks, hv, ha]
/-! ## One worker -/

/-- C4: a worker acknowledges exactly once, as the last thing it does, with
its cumulative success. Run on a queue that delivers `queue` and is then
closed, `worker` invokes the handler on the tasks up to the first one it
rejects and then sends one acknowledgment; the value is true exactly when the
handler accepted every task (the worker then handled the whole queue and
stopped on the closed, empty queue), and false only when the last invocation
returned false. In every state of a pool, what a worker that has returned did
is `worker` on the tasks it received; a worker that has not returned has sent
no acknowledgment. -/
theorem worker_acknowledges_once {κ τ : Type} (id : Int) (queue : List τ) (context : Option κ)
    (handler : TaskHandler κ τ) {p : Pool τ} {script : List (Call κ τ)} {sched : List Actor} {s : State κ τ}
    (hr : run sched (State.init p script) = some s) {k : Nat} {w : Worker κ τ}
    (hw : s.workers[k]? = some w) :
    (worker id queue context handler =
        (handledTasks handler context queue).map
            (fun t => WEvent.invoked context t (handler context t))
          ++ [WEvent.acknowledged (queue.all (handler context))]) ∧
    (worker id queue context handler).filterMap WEvent.ackValue
      = [queue.all (handler context)] ∧
    (worker id queue context handler).getLast?
      = some (WEvent.acknowledged (queue.all (handler context))) ∧
    (queue.all (handler context) = true ↔ ∀ t ∈ queue, handler context t = true) ∧
    (queue.all (handler context) = true → handledTasks handler context queue = queue) ∧
    (queue.all (handler context) = false →
      ∃ t, (handledTasks handler context queue).getLast? = some t ∧ handler context t = false) ∧
    (w.isDone = true → s.trace k = worker w.id (s.receivedBy k) w.context w.handler) ∧
    (w.isDone = false → (s.trace k).filterMap WEvent.ackValue = [] ∧
      s.trace k <+: worker w.id (s.receivedBy k) w.context w.handler) := by
  have hc := (traceInv_of_reachable (Reachable.of_run hr) k).1 w hw
  refine ⟨worker_eq id queue context handler, ?_, ?_, List.all_eq_true, ?_,
    handledTasks_getLast handler context queue, hc.refines.1, hc.refines.2⟩
  · rw [worker_eq, List.filterMap_append, filterMap_ackValue_invocations]
    rfl
  · rw [worker_eq, List.getLast?_append]
    rfl
  · intro h
    exact handledTasks_all_true handler context queue (List.all_eq_true.mp h)

/-- C2: a handler that returns false stops its worker. Run on a queue that
holds `task`, rejected by the handler, after tasks it accepts, `worker`
invokes the handler on those tasks and on `task`, on nothing that follows,
and acknowledges false. In every state of a pool, a worker whose handler has
returned false on a task is out of its loop for good with `success` false:
that invocation is the last one in what it did, followed at most by its
acknowledgment, which is false. -/
theorem worker_stops_on_false {κ τ : Type} (id : Int) (context : Option κ)
    (handler : TaskHandler κ τ) (pre : List τ) (task : τ) (post : List τ)
    (hpre : ∀ t ∈ pre, handler context t = true) (hf : handler context task = false)
    {p : Pool τ} {script : List (Call κ τ)} {sched : List Actor} {s : State κ τ}
    (hr : run sched (State.init p script) = some s) {k : Nat} {w : Worker κ τ}
    (hw : s.workers[k]? = some w) :
    worker id (pre ++ task :: post) context handler =
      pre.map (fun t => WEvent.invoked context t true)
        ++ [WEvent.invoked context task false, WEvent.acknowledged false] ∧
    ∀ c t, WEvent.invoked c t false ∈ s.trace k →
      (w.pc = WPc.ack ∨ w.pc = WPc.done) ∧ w.success = false ∧
      ∃ rc1, s.receivedBy k = rc1 ++ [t] ∧
        s.trace k = rc1.map (fun u => WEvent.invoked c u true) ++ WEvent.invoked c t false
          :: (if w.isDone then [WEvent.acknowledged false] else []) := by
  have hc := (traceInv_of_reachable (Reachable.of_run hr) k).1 w hw
  constructor
  · rw [worker_eq, handledTasks_first_false handler context pre task post hpre hf]
    have hall : (pre ++ task :: post).all (handler context) = false := by
      simp [hf]
    have hmap : pre.map (fun t => WEvent.invoked context t (handler context t))
        = pre.map (fun t => WEvent.invoked context t true) := by
      apply List.map_congr_left
      intro u hu
      rw [hpre u hu]
    rw [hall, List.map_append, hmap]
    simp [hf]
  · intro c t hm
    exact hc.after_false hm
/-! ## Runs of `program` -/

theorem Step.frames {κ τ : Type} {h : TaskHandler κ τ} {g : Option (TaskContextGenerator κ)}
    {s s1 : State κ τ} (hs : Step s s1)
    (hpc : ∀ i h1 g1, s.pc = CPc.spawning i h1 g1 → h1 = h ∧ g1 = g ∧ (s.workers.length : Int) = i)
    (hi : ∀ (k : Nat) (w : Worker κ τ), s.workers[k]? = some w → w.id = (k : Int) ∧ w.context = contextFor g k ∧ w.handler = h) :
    ∀ (k : Nat) (w : Worker κ τ), s1.workers[k]? = some w → w.id = (k : Int) ∧ w.context = contextFor g k ∧ w.handler = h := by
  have hset : ∀ (k0 : Nat) (w0 v : Worker κ τ), s.workers[k0]? = some w0 →
      v.id = w0.id → v.context = w0.context → v.handler = w0.handler →
      ∀ (k : Nat) (w : Worker κ τ), (s.workers.set k0 v)[k]? = some w →
        w.id = (k : Int) ∧ w.context = contextFor g k ∧ w.handler = h := by
    intro k0 w0 v hw0 h1 h2 h3 k w hw
    by_cases hk : k0 = k
    · subst hk
      have hlt : k0 < s.workers.length := by
        rw [List.getElem?_eq_some] at hw0
        exact hw0.1
      rw [List.getElem?_set_self hlt] at hw
      cases hw
      rw [h1, h2, h3]
      exact hi k0 w0 hw0
    · rw [List.getElem?_set_ne hk] at hw
      exact hi k w hw
  cases hs
  case spawn i handler generator call rest hp hpc1 hs1 hlt =>
    obtain ⟨rfl, rfl, hlen⟩ := hpc i handler generator hpc1
    intro k w hw
    by_cases hk : k < s.workers.length
    · rw [List.getElem?_append_left hk] at hw
      exact hi k w hw
    · have hk2 : s.workers.length ≤ k := by omega
      rw [List.getElem?_append_right hk2] at hw
      cases hk3 : k - s.workers.length with
      | zero =>
        rw [hk3] at hw
        simp only [List.getElem?_cons_zero, Option.some.injEq] at hw
        subst hw
        have : (k : Int) = i := by omega
        simp [Worker.spawn, this]
      | succ m =>
        rw [hk3] at hw
        simp at hw
  case recvTask k0 w0 task rest hp hw0 hpc1 hb =>
    exact hset k0 w0 _ hw0 rfl rfl rfl
  case recvClosed k0 w0 hp hw0 hpc1 hb hc =>
    exact hset k0 w0 _ hw0 rfl rfl rfl
  case handle k0 w0 task hp hw0 hpc1 =>
    exact hset k0 w0 _ hw0 rfl rfl rfl
  case ack k0 w0 hp hw0 hpc1 ho hl =>
    exact hset k0 w0 _ hw0 rfl rfl rfl
  all_goals exact hi

theorem program_eq_start {κ τ : Type} {h handler : TaskHandler κ τ}
    {g : Option (TaskContextGenerator κ)} {ts : List τ} {rest : List (Call κ τ)}
    (e : program h g ts = Call.start handler :: rest) :
    handler = h ∧ g = none ∧ rest = ts.map Call.submit ++ [Call.waitForCompletion] := by
  cases g <;> simp [program, startCall] at e
  exact ⟨e.1.symm, rfl, e.2.symm⟩

theorem program_eq_startWithContext {κ τ : Type} {h handler : TaskHandler κ τ}
    {g : Option (TaskContextGenerator κ)} {gen : TaskContextGenerator κ} {ts : List τ}
    {rest : List (Call κ τ)} (e : program h g ts = Call.startWithContext handler gen :: rest) :
    handler = h ∧ g = some gen ∧ rest = ts.map Call.submit ++ [Call.waitForCompletion] := by
  cases g <;> simp [program, startCall] at e
  obtain ⟨⟨h1, h2⟩, h3⟩ := e
  exact ⟨h1.symm, by rw [h2], h3.symm⟩

theorem program_ne_submit {κ τ : Type} {h : TaskHandler κ τ}
    {g : Option (TaskContextGenerator κ)} {ts : List τ} {t : τ} {rest : List (Call κ τ)} :
    program h g ts ≠ Call.submit t :: rest := by
  cases g <;> simp [program, startCall]

theorem program_ne_wait {κ τ : Type} {h : TaskHandler κ τ}
    {g : Option (TaskContextGenerator κ)} {ts : List τ} {rest : List (Call κ τ)} :
    program h g ts ≠ Call.waitForCompletion :: rest := by
  cases g <;> simp [program, startCall]

theorem program_tail {κ τ : Type} {h : TaskHandler κ τ}
    {g : Option (TaskContextGenerator κ)} {ts : List τ} {call : Call κ τ}
    {rest : List (Call κ τ)} (e : program h g ts = call :: rest) :
    rest = ts.map Call.submit ++ [Call.waitForCompletion] := by
  simp only [program, List.cons.injEq] at e
  exact e.2.symm

theorem submits_eq_submit {κ τ : Type} {rest0 : List τ} {t : τ} {rest : List (Call κ τ)}
    (e : rest0.map Call.submit ++ [Call.waitForCompletion] = Call.submit t :: rest) :
    ∃ r, rest0 = t :: r ∧ rest = r.map Call.submit ++ [Call.waitForCompletion] := by
  cases rest0 with
  | nil => simp at e
  | cons u r =>
    simp only [List.map_cons, List.cons_append, List.cons.injEq, Call.submit.injEq] at e
    exact ⟨r, by rw [e.1], e.2.symm⟩

theorem submits_eq_wait {κ τ : Type} {rest0 : List τ} {rest : List (Call κ τ)}
    (e : rest0.map Call.submit ++ [Call.waitForCompletion]
      = (Call.waitForCompletion : Call κ τ) :: rest) :
    rest0 = [] ∧ rest = [] := by
  cases rest0 with
  | nil =>
    simp only [List.map_nil, List.nil_append, List.cons.injEq, true_and] at e
    exact ⟨rfl, e.symm⟩
  | cons u r => simp at e

theorem submits_ne_start {κ τ : Type} {rest0 : List τ} {handler : TaskHandler κ τ}
    {rest : List (Call κ τ)} :
    rest0.map Call.submit ++ [Call.waitForCompletion] ≠ Call.start handler :: rest := by
  cases rest0 <;> simp

theorem submits_ne_startWithContext {κ τ : Type} {rest0 : List τ} {handler : TaskHandler κ τ}
    {gen : TaskContextGenerator κ} {rest : List (Call κ τ)} :
    rest0.map Call.submit ++ [Call.waitForCompletion]
      ≠ Call.startWithContext handler gen :: rest := by
  cases rest0 <;> simp

theorem Phase.of_idle_start {κ τ : Type} {K : Int} {h : TaskHandler κ τ}
    {g : Option (TaskContextGenerator κ)} {ts : List τ} {n : Nat} {sub : List τ}
    {closed : Bool} {ret : Prop} {handler : TaskHandler κ τ} {rest : List (Call κ τ)}
    (p : Phase K h g ts CPc.idle (Call.start handler :: rest) n sub closed ret) :
    handler = h ∧ g = none ∧ rest = ts.map Call.submit ++ [Call.waitForCompletion] ∧
      n = 0 ∧ sub = [] ∧ closed = false ∧ ¬ ret := by
  rcases p with ⟨_, h2, h3, h4, h5, h6⟩ | ⟨i0, h1, _⟩ | ⟨rest0, _, h2, _⟩ | ⟨i0, h1, _⟩ |
    ⟨_, h2, _⟩
  · obtain ⟨e1, e2, e3⟩ := program_eq_start h2.symm
    exact ⟨e1, e2, e3, h3, h4, h5, h6⟩
  · cases h1
  · exact absurd h2.symm submits_ne_start
  · cases h1
  · cases h2

theorem Phase.of_idle_startWithContext {κ τ : Type} {K : Int} {h : TaskHandler κ τ}
    {g : Option (TaskContextGenerator κ)} {ts : List τ} {n : Nat} {sub : List τ}
    {closed : Bool} {ret : Prop} {handler : TaskHandler κ τ}
    {gen : TaskContextGenerator κ} {rest : List (Call κ τ)}
    (p : Phase K h g ts CPc.idle (Call.startWithContext handler gen :: rest) n sub closed ret) :
    handler = h ∧ g = some gen ∧ rest = ts.map Call.submit ++ [Call.waitForCompletion] ∧
      n = 0 ∧ sub = [] ∧ closed = false ∧ ¬ ret := by
  rcases p with ⟨_, h2, h3, h4, h5, h6⟩ | ⟨i0, h1, _⟩ | ⟨rest0, _, h2, _⟩ | ⟨i0, h1, _⟩ |
    ⟨_, h2, _⟩
  · obtain ⟨e1, e2, e3⟩ := program_eq_startWithContext h2.symm
    exact ⟨e1, e2, e3, h3, h4, h5, h6⟩
  · cases h1
  · exact absurd h2.symm submits_ne_startWithContext
  · cases h1
  · cases h2

theorem Phase.of_spawning {κ τ : Type} {K : Int} {h : TaskHandler κ τ}
    {g : Option (TaskContextGenerator κ)} {ts : List τ} {n : Nat} {sub : List τ}
    {closed : Bool} {ret : Prop} {i : Int} {handler : TaskHandler κ τ}
    {generator : Option (TaskContextGenerator κ)} {call : Call κ τ} {rest : List (Call κ τ)}
    (p : Phase K h g ts (CPc.spawning i handler generator) (call :: rest) n sub closed ret) :
    handler = h ∧ generator = g ∧ call :: rest = program h g ts ∧
      (n : Int) = i ∧ sub = [] ∧ closed = false ∧ ¬ ret := by
  rcases p with ⟨h1, _⟩ | ⟨i0, h1, h2, h3, h4, h5, h6⟩ | ⟨rest0, h1, _⟩ | ⟨i0, h1, _⟩ |
    ⟨h1, _⟩
  · cases h1
  · cases h1
    exact ⟨rfl, rfl, h2, h3, h4, h5, h6⟩
  · cases h1
  · cases h1
  · cases h1

theorem Phase.of_idle_submit {κ τ : Type} {K : Int} {h : TaskHandler κ τ}
    {g : Option (TaskContextGenerator κ)} {ts : List τ} {n : Nat} {sub : List τ}
    {closed : Bool} {ret : Prop} {t : τ} {rest : List (Call κ τ)}
    (p : Phase K h g ts CPc.idle (Call.submit t :: rest) n sub closed ret) :
    ∃ r, rest = r.map Call.submit ++ [Call.waitForCompletion] ∧
      (n : Int) = K ∧ sub ++ t :: r = ts ∧ closed = false ∧ ¬ ret := by
  rcases p with ⟨_, h2, _⟩ | ⟨i0, h1, _⟩ | ⟨rest0, _, h2, h3, h4, h5, h6⟩ | ⟨i0, h1, _⟩ |
    ⟨_, h2, _⟩
  · exact absurd h2.symm program_ne_submit
  · cases h1
  · obtain ⟨r, rfl, e⟩ := submits_eq_submit h2.symm
    exact ⟨r, e, h3, h4, h5, h6⟩
  · cases h1
  · cases h2

theorem Phase.of_idle_wait {κ τ : Type} {K : Int} {h : TaskHandler κ τ}
    {g : Option (TaskContextGenerator κ)} {ts : List τ} {n : Nat} {sub : List τ}
    {closed : Bool} {ret : Prop} {rest : List (Call κ τ)}
    (p : Phase K h g ts CPc.idle (Call.waitForCompletion :: rest) n sub closed ret) :
    rest = [] ∧ (n : Int) = K ∧ sub = ts ∧ closed = false ∧ ¬ ret := by
  rcases p with ⟨_, h2, _⟩ | ⟨i0, h1, _⟩ | ⟨rest0, _, h2, h3, h4, h5, h6⟩ | ⟨i0, h1, _⟩ |
    ⟨_, h2, _⟩
  · exact absurd h2.symm program_ne_wait
  · cases h1
  · obtain ⟨rfl, e⟩ := submits_eq_wait h2.symm
    exact ⟨e, h3, by simpa using h4, h5, h6⟩
  · cases h1
  · cases h2

theorem Phase.of_collecting {κ τ : Type} {K : Int} {h : TaskHandler κ τ}
    {g : Option (TaskContextGenerator κ)} {ts : List τ} {n : Nat} {sub : List τ}
    {closed : Bool} {ret : Prop} {i : Int} {call : Call κ τ} {rest : List (Call κ τ)}
    (p : Phase K h g ts (CPc.collecting i) (call :: rest) n sub closed ret) :
    call = Call.waitForCompletion ∧ rest = [] ∧ (n : Int) = K ∧ sub = ts ∧ closed = true
      ∧ ¬ ret := by
  rcases p with ⟨h1, _⟩ | ⟨i0, h1, _⟩ | ⟨rest0, h1, _⟩ | ⟨i0, _, h2, h3, h4, h5, h6⟩ |
    ⟨h1, _⟩
  · cases h1
  · cases h1
  · cases h1
  · simp only [List.cons.injEq] at h2
    exact ⟨h2.1, h2.2, h3, h4, h5, h6⟩
  · cases h1

theorem Step.phase {κ τ : Type} {K : Int} {h : TaskHandler κ τ}
    {g : Option (TaskContextGenerator κ)} {ts : List τ} {s s1 : State κ τ} (hs : Step s s1)
    (hc : ChanInv K s)
    (hph : Phase K h g ts s.pc s.script s.workers.length s.submitted s.pool.tasks.closed
      s.returned) :
    s1.panic = none ∧
    Phase K h g ts s1.pc s1.script s1.workers.length s1.submitted s1.pool.tasks.closed
      s1.returned := by
  have hcount := hc.count
  have hopen := hc.ackOpen
  cases hs
  case enterStart handler rest hp hpc hs1 =>
    rw [hpc, hs1] at hph
    obtain ⟨rfl, rfl, e3, e4, e5, e6, e7⟩ := hph.of_idle_start
    refine ⟨hp, Or.inr (Or.inl ⟨0, rfl, ?_, ?_, e5, e6, e7⟩)⟩
    · show s.script = _
      rw [hs1, e3]; rfl
    · show ((s.workers.length : Nat) : Int) = 0
      rw [e4]; rfl
  case enterStartWithContext handler gen rest hp hpc hs1 =>
    rw [hpc, hs1] at hph
    obtain ⟨rfl, rfl, e3, e4, e5, e6, e7⟩ := hph.of_idle_startWithContext
    refine ⟨hp, Or.inr (Or.inl ⟨0, rfl, ?_, ?_, e5, e6, e7⟩)⟩
    · show s.script = _
      rw [hs1, e3]; rfl
    · show ((s.workers.length : Nat) : Int) = 0
      rw [e4]; rfl
  case spawn i handler generator call rest hp hpc hs1 hlt =>
    rw [hpc, hs1] at hph
    obtain ⟨rfl, rfl, e3, e4, e5, e6, e7⟩ := hph.of_spawning
    refine ⟨hp, Or.inr (Or.inl ⟨i + 1, rfl, hs1.trans e3, ?_, ?_, e6, ?_⟩)⟩
    · simp only [List.length_append, List.length_singleton]
      omega
    · simpa [State.submitted] using e5
    · simpa [State.returned] using e7
  case startReturn i handler generator call rest hp hpc hs1 hlt =>
    rw [hpc, hs1] at hph
    obtain ⟨rfl, rfl, e3, e4, e5, e6, e7⟩ := hph.of_spawning
    have hi := (hc.spawning i handler generator hpc).2
    refine ⟨hp, Or.inr (Or.inr (Or.inl ⟨ts, rfl, program_tail e3.symm, ?_, ?_, e6, e7⟩))⟩
    · show ((s.workers.length : Nat) : Int) = K
      omega
    · show s.submitted ++ ts = ts
      rw [e5]; rfl
  case submit task rest hp hpc hs1 hcl hl =>
    rw [hpc, hs1] at hph
    obtain ⟨r, e1, e2, e3, e4, e5⟩ := hph.of_idle_submit
    refine ⟨hp, Or.inr (Or.inr (Or.inl ⟨r, hpc, e1, e2, ?_, e4, ?_⟩))⟩
    · simpa [State.submitted] using e3
    · simpa [State.returned] using e5
  case submitPanic task rest hp hpc hs1 hcl =>
    rw [hpc, hs1] at hph
    obtain ⟨r, e1, e2, e3, e4, e5⟩ := hph.of_idle_submit
    simp [hcl] at e4
  case close rest hp hpc hs1 hcl =>
    rw [hpc, hs1] at hph
    obtain ⟨e1, e2, e3, e4, e5⟩ := hph.of_idle_wait
    refine ⟨hp, Or.inr (Or.inr (Or.inr (Or.inl ⟨0, rfl, ?_, e2, ?_, rfl, ?_⟩)))⟩
    · show s.script = _
      rw [hs1, e1]
    · simpa [State.submitted] using e3
    · simpa [State.returned] using e5
  case closePanic rest hp hpc hs1 hcl =>
    rw [hpc, hs1] at hph
    obtain ⟨e1, e2, e3, e4, e5⟩ := hph.of_idle_wait
    simp [hcl] at e4
  case collect i call rest b bs hp hpc hs1 hlt hb =>
    rw [hpc, hs1] at hph
    obtain ⟨e0, e1, e2, e3, e4, e5⟩ := hph.of_collecting
    refine ⟨hp, Or.inr (Or.inr (Or.inr (Or.inl ⟨i + 1, rfl, ?_, e2, ?_, e4, ?_⟩)))⟩
    · show s.script = _
      rw [hs1, e0, e1]
    · simpa [State.submitted] using e3
    · simpa [State.returned] using e5
  case collectClosed i call rest hp hpc hs1 hlt hb hcl =>
    simp [hopen] at hcl
  case waitReturn i call rest hp hpc hs1 hlt =>
    rw [hpc, hs1] at hph
    obtain ⟨e0, e1, e2, e3, e4, e5⟩ := hph.of_collecting
    refine ⟨hp, Or.inr (Or.inr (Or.inr (Or.inr ⟨rfl, e1, e2, ?_, e4, ?_⟩)))⟩
    · simpa [State.submitted] using e3
    · simp [State.returned]
  case recvTask k w task rest hp hw hpc hb =>
    exact ⟨hp, by simpa [State.submitted, State.returned] using hph⟩
  case recvClosed k w hp hw hpc hb hcl =>
    exact ⟨hp, by simpa [State.submitted, State.returned] using hph⟩
  case handle k w task hp hw hpc =>
    exact ⟨hp, by simpa [State.submitted, State.returned] using hph⟩
  case ack k w hp hw hpc ho hl =>
    exact ⟨hp, by simpa [State.submitted, State.returned, Worker.onAck] using hph⟩
  case ackPanic k w hp hw hpc ho =>
    simp [hopen] at ho

theorem progInv_init {κ τ : Type} (K : Int) (p : Pool τ) (hc : p.tasks.closed = false)
    (h : TaskHandler κ τ) (g : Option (TaskContextGenerator κ)) (ts : List τ) :
    ProgInv K h g ts (State.init p (program h g ts)) where
  noPanic := rfl
  frames := by simp [State.init]
  phase := Or.inl ⟨rfl, rfl, rfl, rfl, hc, by simp [State.returned, State.init]⟩

theorem progInv_step {κ τ : Type} {K : Int} {h : TaskHandler κ τ}
    {g : Option (TaskContextGenerator κ)} {ts : List τ} {s s1 : State κ τ}
    (hc : ChanInv K s) (hi : ProgInv K h g ts s) (hs : Step s s1) : ProgInv K h g ts s1 where
  noPanic := (hs.phase hc hi.phase).1
  frames := by
    refine hs.frames ?_ hi.frames
    intro i h1 g1 hpc
    have hph := hi.phase
    rw [hpc] at hph
    rcases hph with ⟨e, _⟩ | ⟨i0, e, _, e3, _⟩ | ⟨r, e, _⟩ | ⟨i0, e, _⟩ | ⟨e, _⟩
    · cases e
    · cases e
      exact ⟨rfl, rfl, e3⟩
    · cases e
    · cases e
    · cases e
  phase := (hs.phase hc hi.phase).2

/-- The invariants of a run of `program` on a pool from `New`. -/
theorem progInv_of_reachable {κ τ : Type} {K : Int} {lim : Limits} {p : Pool τ}
    (hp : New τ lim K = Except.ok p)
    {h : TaskHandler κ τ} {g : Option (TaskContextGenerator κ)} {ts : List τ} {s : State κ τ}
    (r : Reachable (State.init p (program h g ts)) s) : ProgInv K h g ts s := by
  induction r with
  | init =>
    obtain ⟨_, rfl⟩ := New_ok hp
    exact progInv_init K _ rfl h g ts
  | step r hs ih => exact progInv_step (chanInv_of_reachable hp r) ih hs
/-! ## Starting with a context generator -/

theorem Ordered.nil {α : Type} (Q : List α → α → Prop) : Ordered Q [] := by
  intro pre e post h
  cases pre <;> simp at h

theorem Ordered.snoc {α : Type} {Q : List α → α → Prop} {l : List α} {x : α}
    (h : Ordered Q l) (hx : Q l x) : Ordered Q (l ++ [x]) := by
  intro pre e post heq
  rcases List.eq_nil_or_concat post with rfl | ⟨post1, y, rfl⟩
  · have : l ++ [x] = pre ++ [e] := heq
    obtain ⟨h1, h2⟩ := List.append_inj' this rfl
    simp only [List.cons.injEq, and_true] at h2
    rw [← h1, ← h2]
    exact hx
  · have : l ++ [x] = (pre ++ e :: post1) ++ [y] := by
      rw [heq]
      simp
    obtain ⟨h1, _⟩ := List.append_inj' this rfl
    exact h pre e post1 h1

theorem StartOrder.of_other {κ τ : Type} {gen : TaskContextGenerator κ}
    {pre : List (Event κ τ)} {e : Event κ τ}
    (h1 : ∀ k id c, e ≠ Event.spawned k id c) (h2 : ∀ k id we, e ≠ Event.worker k id we) :
    StartOrder gen pre e :=
  ⟨fun k id c he => absurd he (h1 k id c), fun k id we he => absurd he (h2 k id we)⟩

theorem StartOrder.of_worker {κ τ : Type} {gen : TaskContextGenerator κ}
    {pre : List (Event κ τ)} {k : Nat} {w : Worker κ τ} {we : WEvent κ τ}
    (hid : w.id = (k : Int)) (hctx : w.context = gen k)
    (hsp : Event.spawned k k (gen k) ∈ pre)
    (hwe : ∀ c t r, we = WEvent.invoked c t r → c = w.context) :
    StartOrder gen pre (Event.worker k w.id we) := by
  constructor
  · intro k1 id c he
    cases he
  · intro k1 id we1 he
    cases he
    exact ⟨hid, hsp, fun c t r h => (hwe c t r h).trans hctx⟩

theorem Step.startInv {κ τ : Type} {K : Int} {h : TaskHandler κ τ}
    {gen : TaskContextGenerator κ} {ts : List τ} {s s1 : State κ τ} (hs : Step s s1)
    (pi : ProgInv K h (some gen) ts s) (hi : StartInv gen s) : StartInv gen s1 := by
  obtain ⟨hcalls, hspawned, horder⟩ := hi
  have hworker : ∀ (k : Nat) (w : Worker κ τ), s.workers[k]? = some w →
      w.id = (k : Int) ∧ w.context = gen k ∧ Event.spawned k k (gen k) ∈ s.events := by
    intro k w hw
    obtain ⟨e1, e2, _⟩ := pi.frames k w hw
    exact ⟨e1, e2, hspawned k (List.getElem?_eq_some.mp hw).1⟩
  cases hs
  case spawn i handler generator call rest hp hpc hs1 hlt =>
    have hph := pi.phase
    rw [hpc, hs1] at hph
    obtain ⟨_, rfl, _, e4, _⟩ := hph.of_spawning
    have hi : i = (s.workers.length : Int) := e4.symm
    subst hi
    refine ⟨?_, ?_, ?_⟩
    · simp [generatedEvents, contextFor, hcalls, List.range_succ]
    · intro k hk
      simp only [List.length_append, List.length_singleton] at hk
      by_cases hk1 : k < s.workers.length
      · have := hspawned k hk1
        simp [this]
      · have : k = s.workers.length := by omega
        subst this
        simp [contextFor]
    · have h1 : Ordered (StartOrder gen)
          (s.events ++ [Event.generated (s.workers.length : Int) (gen s.workers.length)]) :=
        horder.snoc (StartOrder.of_other (by simp) (by simp))
      have h2 := h1.snoc (x := Event.spawned s.workers.length (s.workers.length : Int)
        (gen s.workers.length)) (by
          constructor
          · intro k id c he
            cases he
            exact ⟨rfl, rfl, by simp⟩
          · intro k id we he
            cases he)
      simpa [generatedEvents, contextFor] using h2
  case recvTask k w task rest hp hw hpc hb =>
    refine ⟨by simpa using hcalls, ?_, horder.snoc (StartOrder.of_other (by simp) (by simp))⟩
    intro k1 hk1
    simp only [List.length_set] at hk1
    simp [hspawned k1 hk1]
  case recvClosed k w hp hw hpc hb hcl =>
    refine ⟨by simpa using hcalls, ?_, horder⟩
    intro k1 hk1
    simp only [List.length_set] at hk1
    exact hspawned k1 hk1
  case handle k w task hp hw hpc =>
    obtain ⟨e1, e2, e3⟩ := hworker k w hw
    have hev : (w.onTask task).2 = [] ∨
        (w.onTask task).2 = [WEvent.invoked w.context task (w.handler w.context task)] := by
      unfold Worker.onTask
      by_cases hsu : w.success = true
      · right; simp [hsu]
      · left; simp [hsu]
    refine ⟨?_, ?_, ?_⟩
    · rcases hev with h0 | h0 <;> simpa [h0] using hcalls
    · intro k1 hk1
      simp only [List.length_set] at hk1
      have := hspawned k1 hk1
      simp [this]
    · rcases hev with h0 | h0
      · simpa [h0] using horder
      · have := horder.snoc (x := Event.worker k w.id
          (WEvent.invoked w.context task (w.handler w.context task)))
          (StartOrder.of_worker e1 e2 e3 (by
            intro c t r he
            cases he
            rfl))
        simpa [h0] using this
  case ack k w hp hw hpc ho hl =>
    obtain ⟨e1, e2, e3⟩ := hworker k w hw
    refine ⟨by simpa [Worker.onAck] using hcalls, ?_, ?_⟩
    · intro k1 hk1
      simp only [List.length_set] at hk1
      have := hspawned k1 hk1
      simp [this]
    · have := horder.snoc (x := Event.worker k w.id (WEvent.acknowledged w.success))
        (StartOrder.of_worker e1 e2 e3 (by
          intro c t r he
          cases he))
      simpa [Worker.onAck] using this
  case submit task rest hp hpc hs1 hcl hl =>
    refine ⟨by simpa using hcalls, ?_, horder.snoc (StartOrder.of_other (by simp) (by simp))⟩
    intro k1 hk1
    simp [hspawned k1 hk1]
  case close rest hp hpc hs1 hcl =>
    refine ⟨by simpa using hcalls, ?_, horder.snoc (StartOrder.of_other (by simp) (by simp))⟩
    intro k1 hk1
    simp [hspawned k1 hk1]
  case collect i call rest b bs hp hpc hs1 hlt hb =>
    refine ⟨by simpa using hcalls, ?_, horder.snoc (StartOrder.of_other (by simp) (by simp))⟩
    intro k1 hk1
    simp [hspawned k1 hk1]
  case waitReturn i call rest hp hpc hs1 hlt =>
    refine ⟨by simpa using hcalls, ?_, horder.snoc (StartOrder.of_other (by simp) (by simp))⟩
    intro k1 hk1
    simp [hspawned k1 hk1]
  all_goals exact ⟨hcalls, hspawned, horder⟩

theorem startInv_of_reachable {κ τ : Type} {K : Int} {lim : Limits} {p : Pool τ}
    (hp : New τ lim K = Except.ok p)
    {h : TaskHandler κ τ} {gen : TaskContextGenerator κ} {ts : List τ} {s : State κ τ}
    (r : Reachable (State.init p (program h (some gen) ts)) s) : StartInv gen s := by
  induction r with
  | init =>
    exact ⟨by simp [State.init], by simp [State.init], Ordered.nil _⟩
  | step r hs ih => exact hs.startInv (progInv_of_reachable hp r) ih
/-! ## Handlers that never stop a worker -/

theorem success_of_always_true {κ τ : Type} {K : Int} {h : TaskHandler κ τ}
    {g : Option (TaskContextGenerator κ)} {ts : List τ} {s : State κ τ}
    (hh : ∀ c t, h c t = true) (wi : WorkInv s) (pi : ProgInv K h g ts s) :
    ∀ w ∈ s.workers, w.success = true := by
  intro w hw
  cases hs : w.success with
  | true => rfl
  | false =>
    obtain ⟨t, ht⟩ := wi.failed w hw hs
    obtain ⟨k, hk⟩ := List.mem_iff_getElem?.mp hw
    rw [(pi.frames k w hk).2.2, hh] at ht
    cases ht

theorem Step.acks_true {κ τ : Type} {s s1 : State κ τ} (hs : Step s s1)
    (hw : ∀ w ∈ s.workers, w.success = true) (hi : ∀ b ∈ s.acks, b = true) :
    ∀ b ∈ s1.acks, b = true := by
  simp only [State.acks] at *
  cases hs
  case ack k w hp hw1 hpc ho hl =>
    have := hw w (mem_of_getElem?_eq hw1)
    simpa [Worker.onAck, this] using hi
  all_goals simpa using hi

theorem acks_true_of_reachable {κ τ : Type} {K : Int} {lim : Limits} {p : Pool τ}
    (hp : New τ lim K = Except.ok p) {h : TaskHandler κ τ} (hh : ∀ c t, h c t = true)
    {g : Option (TaskContextGenerator κ)} {ts : List τ} {s : State κ τ}
    (r : Reachable (State.init p (program h g ts)) s) : ∀ b ∈ s.acks, b = true := by
  induction r with
  | init => simp [State.init, State.acks]
  | step r hs ih =>
    exact hs.acks_true
      (success_of_always_true hh (workInv_of_reachable r) (progInv_of_reachable hp r)) ih

theorem Worker.inHand_of_isDone {κ τ : Type} {w : Worker κ τ} (h : w.isDone = true) :
    w.inHand = none := by
  unfold Worker.isDone at h
  unfold Worker.inHand
  split at h <;> simp_all

theorem filterMap_inHand_of_done {κ τ : Type} {l : List (Worker κ τ)}
    (h : ∀ w ∈ l, w.isDone = true) : l.filterMap Worker.inHand = [] := by
  induction l with
  | nil => rfl
  | cons x xs ih =>
    rw [filterMap_cons_toList, Worker.inHand_of_isDone (h x (List.mem_cons_self x xs)),
      ih (fun w hw => h w (List.mem_cons_of_mem x hw))]
    rfl

/-- At the return of `WaitForCompletion` in a run of `program`: every worker
has returned, and what was collected is what was acknowledged. -/
theorem returned_facts {κ τ : Type} {K : Int} {h : TaskHandler κ τ}
    {g : Option (TaskContextGenerator κ)} {ts : List τ} {s : State κ τ}
    (hi : ChanInv K s) (wi : WorkInv s) (pi : ProgInv K h g ts s) (hret : s.returned) :
    s.script = [] ∧ s.submitted = ts ∧ (s.workers.length : Int) = K ∧
    (∀ w ∈ s.workers, w.isDone = true) ∧ s.pool.acknowledge.buf = [] ∧
    s.acks = s.collected ∧ (s.acks.length : Int) = K := by
  have hph := pi.phase
  rcases hph with ⟨_, _, _, _, _, e⟩ | ⟨_, _, _, _, _, _, e⟩ | ⟨_, _, _, _, _, _, e⟩ |
    ⟨_, _, _, _, _, _, e⟩ | ⟨_, e1, e2, e3, _, _⟩
  · exact absurd hret e
  · exact absurd hret e
  · exact absurd hret e
  · exact absurd hret e
  · obtain ⟨_, hK, _⟩ := hi.returned hret
    have hf := congrArg List.length hi.ackFifo
    simp only [List.length_append] at hf
    have hcnt := wi.ackCount
    have hle := List.countP_le_length Worker.isDone (l := s.workers)
    have hbuf : s.pool.acknowledge.buf.length = 0 := by omega
    have hall : s.workers.countP Worker.isDone = s.workers.length := by omega
    have hb := List.eq_nil_of_length_eq_zero hbuf
    refine ⟨e1, e3, e2, List.countP_eq_length.mp hall, hb, ?_, by omega⟩
    have := hi.ackFifo
    rw [hb, List.append_nil] at this
    exact this

/-- At the return of `WaitForCompletion` in a run of `program` with at least
one worker and a handler that never stops a worker: the queue is empty and
the tasks handled are the tasks submitted, up to order. -/
theorem returned_drained {κ τ : Type} {K : Int} {h : TaskHandler κ τ}
    {g : Option (TaskContextGenerator κ)} {ts : List τ} {s : State κ τ}
    (hi : ChanInv K s) (wi : WorkInv s) (pi : ProgInv K h g ts s) (hK : 1 ≤ K)
    (hh : ∀ c t, h c t = true) (hret : s.returned) :
    s.pool.tasks.buf = [] ∧ s.workers.filterMap Worker.inHand = [] ∧ s.received = ts ∧
      s.invoked.Perm ts := by
  obtain ⟨_, hsub, hlen, hdone, _, hacks, hacklen⟩ := returned_facts hi wi pi hret
  have hsucc := success_of_always_true hh wi pi
  have hbuf : s.pool.tasks.buf = [] := by
    cases hws : s.workers with
    | nil =>
      rw [hws] at hlen
      simp at hlen
      omega
    | cons w rest =>
      have hw : w ∈ s.workers := by rw [hws]; exact List.mem_cons_self w rest
      have hd := hdone w hw
      have hpc : w.pc = WPc.done := by
        unfold Worker.isDone at hd
        split at hd
        · assumption
        · cases hd
      exact (wi.sawClosed w hw (Or.inr hpc) (hsucc w hw)).2
  have h1 := wi.handPerm
  rw [filterMap_inHand_of_done hdone, List.append_nil] at h1
  have h2 := hi.fifo
  rw [hbuf, List.append_nil, hsub] at h2
  exact ⟨hbuf, filterMap_inHand_of_done hdone, h2.symm, h2 ▸ h1.symm⟩

/-! ## Termination and progress -/

theorem sum_map_set {α : Type} (f : α → Nat) (l : List α) (k : Nat) (w v : α)
    (h : l[k]? = some w) :
    ((l.set k v).map f).sum + f w = (l.map f).sum + f v := by
  induction l generalizing k with
  | nil => simp at h
  | cons x xs ih =>
    cases k with
    | zero =>
      simp only [List.getElem?_cons_zero, Option.some.injEq] at h
      subst h
      simp only [List.set_cons_zero, List.map_cons, List.sum_cons]
      omega
    | succ k =>
      simp only [List.getElem?_cons_succ] at h
      have := ih k h
      simp only [List.set_cons_succ, List.map_cons, List.sum_cons]
      omega

theorem Worker.onTask_remaining {κ τ : Type} (w : Worker κ τ) (t : τ) :
    (w.onTask t).1.remaining ≤ 2 := by
  unfold Worker.onTask Worker.remaining
  cases (if w.success = true then w.handler w.context t else false) <;> simp

/-- Every action that does not panic uses up fuel. -/
theorem Step.fuel_lt {κ τ : Type} {K : Int} {s s1 : State κ τ} (h : Step s s1)
    (hi : ChanInv K s) (hp : s1.panic = none) : s1.fuel < s.fuel := by
  have hcount := hi.count
  have hK := hi.nonneg
  have hopen := hi.ackOpen
  cases h
  case enterStart handler rest hp0 hpc hs =>
    simp [State.fuel, hpc, hs, Call.cost]
  case enterStartWithContext handler generator rest hp0 hpc hs =>
    simp [State.fuel, hpc, hs, Call.cost]
  case spawn i handler generator call rest hp0 hpc hs hlt =>
    have := (hi.spawning i handler generator hpc).1
    simp [State.fuel, hpc, hs, Worker.spawn, Worker.remaining]
    omega
  case startReturn i handler generator call rest hp0 hpc hs hlt =>
    simp [State.fuel, hpc, hs]
  case submit task rest hp0 hpc hs hcl hl =>
    simp [State.fuel, hpc, hs, Call.cost]
    omega
  case submitPanic task rest hp0 hpc hs hcl => simp at hp
  case close rest hp0 hpc hs hcl =>
    simp [State.fuel, hpc, hs, Call.cost]
  case closePanic rest hp0 hpc hs hcl => simp at hp
  case collect i call rest b bs hp0 hpc hs hlt hb =>
    have := (hi.collecting i hpc).2.1
    simp [State.fuel, hpc, hs]
    omega
  case collectClosed i call rest hp0 hpc hs hlt hb hcl =>
    simp [hopen] at hcl
  case waitReturn i call rest hp0 hpc hs hlt =>
    simp [State.fuel, hpc, hs]
  case recvTask k w task rest hp0 hw hpc hb =>
    have := sum_map_set Worker.remaining s.workers k w (w.onRecv (some task)) hw
    simp only [Worker.remaining, Worker.onRecv, hpc] at this
    simp only [State.fuel, hb, List.length_cons]
    simp only [Worker.onRecv]
    omega
  case recvClosed k w hp0 hw hpc hb hcl =>
    have := sum_map_set Worker.remaining s.workers k w (w.onRecv none) hw
    simp only [Worker.remaining, Worker.onRecv, hpc] at this
    simp only [State.fuel]
    simp only [Worker.onRecv]
    omega
  case handle k w task hp0 hw hpc =>
    have := sum_map_set Worker.remaining s.workers k w (w.onTask task).1 hw
    have h2 := Worker.onTask_remaining w task
    have h3 : w.remaining = 3 := by simp [Worker.remaining, hpc]
    simp only [State.fuel]
    omega
  case ack k w hp0 hw hpc ho hl =>
    have := sum_map_set Worker.remaining s.workers k w (Worker.onAck w).1 hw
    have h2 : (Worker.onAck w).1.remaining = 0 := rfl
    have h3 : w.remaining = 1 := by simp [Worker.remaining, hpc]
    simp only [State.fuel]
    omega
  case ackPanic k w hp0 hw hpc ho => simp at hp

theorem run_of_panic {κ τ : Type} {sched : List Actor} {s0 s : State κ τ}
    (hp : s0.panic ≠ none) (h : run sched s0 = some s) : s = s0 := by
  cases sched with
  | nil =>
    simp only [run, Option.some.injEq] at h
    exact h.symm
  | cons a rest =>
    have : step a s0 = none := by
      unfold step
      split
      · rfl
      · next hn => exact absurd hn hp
    simp [run, this] at h

/-- A run that does not end in a panic is no longer than the fuel it started
with. -/
theorem run_length_le {κ τ : Type} {K : Int} {sched : List Actor} {s0 s : State κ τ}
    (hi : ChanInv K s0) (h : run sched s0 = some s) (hp : s.panic = none) :
    sched.length + s.fuel ≤ s0.fuel := by
  induction sched generalizing s0 with
  | nil =>
    simp only [run, Option.some.injEq] at h
    subst h
    simp
  | cons a rest ih =>
    unfold run at h
    split at h
    next s1 hs =>
      have hstep := Step.of_step hs
      have hp1 : s1.panic = none := by
        by_contra hne
        have := run_of_panic hne h
        rw [this] at hp
        exact hne hp
      have h1 := ih (chanInv_step hi hstep) h
      have h2 := hstep.fuel_lt hi hp1
      simp only [List.length_cons]
      omega
    next => exact absurd h (by simp)

theorem run_append {κ τ : Type} (sched1 sched2 : List Actor) (s0 : State κ τ) :
    run (sched1 ++ sched2) s0 = (run sched1 s0).bind (run sched2) := by
  induction sched1 generalizing s0 with
  | nil => rfl
  | cons a rest ih =>
    simp only [List.cons_append, run]
    cases step a s0 with
    | none => rfl
    | some s1 => exact ih s1

theorem exists_of_countP_lt {α : Type} (p : α → Bool) (l : List α)
    (h : l.countP p < l.length) : ∃ (k : Nat) (w : α), l[k]? = some w ∧ p w = false := by
  induction l with
  | nil => simp at h
  | cons x xs ih =>
    cases hx : p x with
    | false => exact ⟨0, x, by simp, hx⟩
    | true =>
      simp only [List.countP_cons, hx, if_true, List.length_cons] at h
      obtain ⟨k, w, hk, hw⟩ := ih (by omega)
      exact ⟨k + 1, w, by simpa using hk, hw⟩

/-- When a worker can move. -/
theorem worker_enabled {κ τ : Type} {s : State κ τ} {k : Nat} {w : Worker κ τ}
    (hp : s.panic = none) (hw : s.workers[k]? = some w)
    (hrecv : w.pc = WPc.recv → s.pool.tasks.buf ≠ [] ∨ s.pool.tasks.closed = true)
    (hack : w.pc = WPc.ack → s.pool.acknowledge.buf.length < s.pool.acknowledge.cap)
    (hdone : w.pc ≠ WPc.done) : ∃ s1, step (Actor.worker k) s = some s1 := by
  simp only [step, hp, hw, workerStep]
  cases hpc : w.pc with
  | recv =>
    simp only [Chan.recv]
    cases hb : s.pool.tasks.buf with
    | nil =>
      rcases hrecv hpc with h1 | h1
      · exact absurd hb h1
      · simp [h1]
    | cons t rest => simp
  | handle task => simp
  | ack =>
    simp only [Chan.send]
    by_cases hc : s.pool.acknowledge.closed = true
    · simp [hc]
    · simp [hc, hack hpc]
  | done => exact absurd hpc hdone

/-- Until `WaitForCompletion` has returned, a run of `program` with at least
one worker and a handler that never stops a worker is never stuck. -/
theorem program_progress {κ τ : Type} {K : Int} {h : TaskHandler κ τ}
    {g : Option (TaskContextGenerator κ)} {ts : List τ} {s : State κ τ}
    (hi : ChanInv K s) (wi : WorkInv s) (pi : ProgInv K h g ts s) (hK : 1 ≤ K)
    (hh : ∀ c t, h c t = true) (hret : ¬ s.returned) :
    ∃ a s1, step a s = some s1 := by
  have hp := pi.noPanic
  have hsucc := success_of_always_true hh wi pi
  rcases pi.phase with ⟨hpc, hs, _⟩ | ⟨i, hpc, hs, _⟩ | ⟨rest, hpc, hs, hn, _, hcl, _⟩ |
    ⟨i, hpc, hs, hn, _, hcl, _⟩ | ⟨_, _, _, _, _, hr⟩
  · refine ⟨Actor.caller, ?_⟩
    cases g <;> simp [step, callerStep, hp, hpc, hs, program, startCall]
  · refine ⟨Actor.caller, ?_⟩
    simp [step, callerStep, hp, hpc, hs, program]
  · cases rest with
    | nil =>
      refine ⟨Actor.caller, ?_⟩
      simp [step, callerStep, hp, hpc, hs]
    | cons t rest =>
      by_cases hl : s.pool.tasks.buf.length < s.pool.tasks.cap
      · refine ⟨Actor.caller, ?_⟩
        simp [step, callerStep, hp, hpc, hs, Submit, Chan.send, hcl, hl]
      · have hcap := hi.tasksCap
        have hne : s.pool.tasks.buf ≠ [] := by
          intro h0
          rw [h0, hcap] at hl
          simp at hl
        have hlen : 0 < s.workers.length := by omega
        obtain ⟨w, hw⟩ : ∃ w, s.workers[0]? = some w :=
          ⟨s.workers[0], List.getElem?_eq_getElem hlen⟩
        have hmem := mem_of_getElem?_eq hw
        have hopenq : ∀ hpc : w.pc = WPc.ack ∨ w.pc = WPc.done, False := by
          intro hpcw
          have := (wi.sawClosed w hmem hpcw (hsucc w hmem)).1
          rw [hcl] at this
          cases this
        obtain ⟨s1, h1⟩ := worker_enabled hp hw (fun _ => Or.inl hne)
          (fun hpcw => (hopenq (Or.inl hpcw)).elim) (fun hpcw => hopenq (Or.inr hpcw))
        exact ⟨Actor.worker 0, s1, h1⟩
  · by_cases hlt : i < s.pool.count
    · cases hb : s.pool.acknowledge.buf with
      | cons b bs =>
        refine ⟨Actor.caller, ?_⟩
        simp [step, callerStep, hp, hpc, hs, waitLoop, hlt, Chan.recv, hb]
      | nil =>
        obtain ⟨_, hcol, _, _⟩ := hi.collecting i hpc
        have hf := congrArg List.length hi.ackFifo
        rw [hb] at hf
        simp only [List.length_append, List.length_nil, Nat.add_zero] at hf
        have hcnt := wi.ackCount
        have hcount := hi.count
        have hlt2 : s.workers.countP Worker.isDone < s.workers.length := by omega
        obtain ⟨k, w, hw, hnd⟩ := exists_of_countP_lt _ _ hlt2
        have hcapack := hi.ackCap
        obtain ⟨s1, h1⟩ := worker_enabled hp hw (fun _ => Or.inr hcl)
          (fun _ => by rw [hb, hcapack]; simp; omega)
          (fun hpcw => by simp [Worker.isDone, hpcw] at hnd)
        exact ⟨Actor.worker k, s1, h1⟩
    · refine ⟨Actor.caller, ?_⟩
      simp [step, callerStep, hp, hpc, hs, waitLoop, hlt]
  · exact absurd hr hret

/-- From every state of a run of `program` with at least one worker and a
handler that never stops a worker, some schedule leads to the return of
`WaitForCompletion`. -/
theorem program_can_return {κ τ : Type} {K : Int} {lim : Limits} {p : Pool τ}
    (hp : New τ lim K = Except.ok p)
    (hK : 1 ≤ K) {h : TaskHandler κ τ} (hh : ∀ c t, h c t = true)
    {g : Option (TaskContextGenerator κ)} {ts : List τ} (n : Nat) {s : State κ τ}
    (r : Reachable (State.init p (program h g ts)) s) (hn : s.fuel ≤ n) :
    ∃ sched1 s1, run sched1 s = some s1 ∧ s1.returned := by
  induction n generalizing s with
  | zero =>
    by_cases hret : s.returned
    · exact ⟨[], s, rfl, hret⟩
    · obtain ⟨a, s1, h1⟩ := program_progress (chanInv_of_reachable hp r)
        (workInv_of_reachable r) (progInv_of_reachable hp r) hK hh hret
      have r1 := Reachable.step r (Step.of_step h1)
      have := (Step.of_step h1).fuel_lt (chanInv_of_reachable hp r)
        (progInv_of_reachable hp r1).noPanic
      omega
  | succ n ih =>
    by_cases hret : s.returned
    · exact ⟨[], s, rfl, hret⟩
    · obtain ⟨a, s1, h1⟩ := program_progress (chanInv_of_reachable hp r)
        (workInv_of_reachable r) (progInv_of_reachable hp r) hK hh hret
      have r1 := Reachable.step r (Step.of_step h1)
      have hlt := (Step.of_step h1).fuel_lt (chanInv_of_reachable hp r)
        (progInv_of_reachable hp r1).noPanic
      obtain ⟨sched2, s2, h2, hret2⟩ := ih r1 (by omega)
      exact ⟨a :: sched2, s2, by simp [run, h1, h2], hret2⟩

theorem sum_cost_submits {κ τ : Type} (K : Nat) (ts : List τ) :
    (ts.map ((Call.cost K : Call κ τ → Nat) ∘ Call.submit)).sum = 3 * ts.length := by
  induction ts with
  | nil => rfl
  | cons t rest ih =>
    simp only [List.map_cons, List.sum_cons, List.length_cons, ih, Function.comp, Call.cost]
    omega

/-- The fuel of `program` on a fresh pool. -/
theorem init_fuel {κ τ : Type} {K : Int} {lim : Limits} {p : Pool τ}
    (hp : New τ lim K = Except.ok p)
    {h : TaskHandler κ τ} {g : Option (TaskContextGenerator κ)} {ts : List τ} :
    (State.init p (program h g ts)).fuel = 4 + 4 * K.toNat + 3 * ts.length := by
  obtain ⟨_, rfl⟩ := New_ok hp
  have := sum_cost_submits (κ := κ) K.toNat ts
  cases g <;>
    simp [State.fuel, State.init, program, startCall, Call.cost, List.map_append,
      List.sum_append, this] <;> omega
/-- C1: a pool of `K ≥ 1` workers started once with a handler that returns
true on every task, `ts` submitted, then `WaitForCompletion`. The program
never panics, and in every state in which `WaitForCompletion` has returned:
the queue is empty, all of `ts` was submitted, the tasks the handler was
invoked on are `ts` up to order (each task exactly once, so `ts.length`
invocations), every worker has returned, and exactly `K` acknowledgments were
sent and collected, all true. And `WaitForCompletion` does return: no run has
more than `4 + 4 * K + 3 * ts.length` actions, a run that has not reached the
return is never stuck, and it can be continued to the return. -/
theorem all_tasks_handled {κ τ : Type} {K : Int} {lim : Limits} {p : Pool τ}
    (hp : New τ lim K = Except.ok p)
    (hK : 1 ≤ K) {h : TaskHandler κ τ} (hh : ∀ c t, h c t = true)
    {g : Option (TaskContextGenerator κ)} {ts : List τ} {sched : List Actor} {s : State κ τ}
    (hr : run sched (State.init p (program h g ts)) = some s) :
    s.panic = none ∧
    (s.returned →
      s.pool.tasks.buf = [] ∧ s.submitted = ts ∧ s.invoked.Perm ts ∧
      s.invoked.length = ts.length ∧ (∀ w ∈ s.workers, w.isDone = true) ∧
      s.acks = List.replicate K.toNat true ∧ s.collected = List.replicate K.toNat true) ∧
    sched.length + s.fuel ≤ 4 + 4 * K.toNat + 3 * ts.length ∧
    (¬ s.returned → ∃ a s1, step a s = some s1) ∧
    (∃ sched1 s1, run (sched ++ sched1) (State.init p (program h g ts)) = some s1 ∧
      s1.returned) := by
  have r := Reachable.of_run hr
  have hi := chanInv_of_reachable hp r
  have wi := workInv_of_reachable r
  have pi := progInv_of_reachable hp r
  refine ⟨pi.noPanic, fun hret => ?_, ?_, ?_, ?_⟩
  · obtain ⟨_, hsub, hlen, hdone, _, hacks, hacklen⟩ := returned_facts hi wi pi hret
    obtain ⟨hbuf, _, _, hperm⟩ := returned_drained hi wi pi hK hh hret
    have hrep : s.acks = List.replicate K.toNat true := by
      rw [List.eq_replicate_iff]
      exact ⟨by omega, acks_true_of_reachable hp hh r⟩
    exact ⟨hbuf, hsub, hperm, hperm.length_eq, hdone, hrep, hacks ▸ hrep⟩
  · have hle := run_length_le (chanInv_init hp (program h g ts)) hr pi.noPanic
    rw [init_fuel hp] at hle
    omega
  · exact program_progress hi wi pi hK hh
  · obtain ⟨sched1, s1, h1, hret1⟩ := program_can_return hp hK hh s.fuel r (le_refl _)
    refine ⟨sched1, s1, ?_, hret1⟩
    rw [run_append, hr]
    exact h1

/-- C5: with exactly one worker the handler is invoked on the tasks in the
order of their submission. In every state of a run of `program` on a pool of
one worker, what was submitted is an initial part of `ts`, and the tasks the
handler was invoked on, in order of invocation, are an initial part of what
was submitted; once `WaitForCompletion` has returned, a handler that returns
true on every task has been invoked on exactly `ts`, in that order. -/
theorem single_worker_fifo {κ τ : Type} {lim : Limits} {p : Pool τ}
    (hp : New τ lim 1 = Except.ok p)
    {h : TaskHandler κ τ} {g : Option (TaskContextGenerator κ)} {ts : List τ}
    {sched : List Actor} {s : State κ τ}
    (hr : run sched (State.init p (program h g ts)) = some s) :
    s.submitted <+: ts ∧ s.invoked <+: s.submitted ∧
    (∀ (i : Nat) (t : τ), s.invoked[i]? = some t → ts[i]? = some t) ∧
    ((∀ c t, h c t = true) → s.returned → s.invoked = ts) := by
  have r := Reachable.of_run hr
  have hi := chanInv_of_reachable hp r
  have wi := workInv_of_reachable r
  have pi := progInv_of_reachable hp r
  have hlen : s.workers.length ≤ 1 := by
    rcases pi.phase with ⟨_, _, e, _⟩ | ⟨i, e0, _, e, _⟩ | ⟨_, _, _, e, _⟩ | ⟨_, _, _, e, _⟩ |
      ⟨_, _, e, _⟩
    · omega
    · have := (hi.spawning i h g e0).2
      omega
    · omega
    · omega
    · omega
  have hsub : s.submitted <+: ts := by
    rcases pi.phase with ⟨_, _, _, e, _⟩ | ⟨_, _, _, _, e, _⟩ | ⟨rest, _, _, _, e, _⟩ |
      ⟨_, _, _, _, e, _⟩ | ⟨_, _, _, e, _⟩
    · rw [e]; exact List.nil_prefix
    · rw [e]; exact List.nil_prefix
    · exact ⟨rest, e⟩
    · rw [e]
    · rw [e]
  have hinv : s.invoked <+: s.submitted := by
    refine ⟨s.workers.filterMap Worker.inHand ++ s.pool.tasks.buf, ?_⟩
    rw [hi.fifo, wi.single hlen, List.append_assoc]
  refine ⟨hsub, hinv, ?_, ?_⟩
  · intro i t hit
    obtain ⟨r, hr⟩ := hinv.trans hsub
    have hlt : i < s.invoked.length := by
      rw [List.getElem?_eq_some] at hit
      exact hit.1
    rw [← hr, List.getElem?_append_left hlt]
    exact hit
  · intro hh hret
    obtain ⟨hbuf, hhand, hrec, _⟩ := returned_drained hi wi pi (le_refl 1) hh hret
    have := wi.single hlen
    rw [hhand, List.append_nil, hrec] at this
    exact this.symm

/-- C6: `StartWithContext(handler, gen)` on a pool of `K` workers. In every
state of a run of `program`, the calls of the generator made so far are one
per worker spawned so far, on the ids 0, 1, 2, ... in that order, never more
than `K`, and exactly `K` once `StartWithContext` has returned; the worker at
position `k` has id `k`, context `gen k` and the handler; in the trace every
spawn comes right after the generator call for its id and passes its result,
and whatever a worker does comes after its spawn, each handler invocation
getting the context `gen k` of its worker. -/
theorem generator_once_per_worker {κ τ : Type} {K : Int} {lim : Limits} {p : Pool τ}
    (hp : New τ lim K = Except.ok p) {h : TaskHandler κ τ} {gen : TaskContextGenerator κ}
    {ts : List τ} {sched : List Actor} {s : State κ τ}
    (hr : run sched (State.init p (program h (some gen) ts)) = some s) :
    s.events.filterMap Event.generatedCall
      = (List.range s.workers.length).map (fun k => ((k : Int), gen k)) ∧
    (s.workers.length : Int) ≤ K ∧
    (s.script ≠ program h (some gen) ts → (s.workers.length : Int) = K) ∧
    (∀ (k : Nat) (w : Worker κ τ), s.workers[k]? = some w →
      w.id = (k : Int) ∧ w.context = gen k ∧ w.handler = h) ∧
    (∀ pre e post, s.events = pre ++ e :: post →
      (∀ (k : Nat) (id : Int) (c : Option κ), e = Event.spawned k id c →
        id = (k : Int) ∧ c = gen k ∧ pre.getLast? = some (Event.generated k (gen k))) ∧
      (∀ (k : Nat) (id : Int) (we : WEvent κ τ), e = Event.worker k id we →
        id = (k : Int) ∧ Event.spawned k k (gen k) ∈ pre ∧
        ∀ c t r, we = WEvent.invoked c t r → c = gen k)) := by
  have r := Reachable.of_run hr
  have hi := chanInv_of_reachable hp r
  have pi := progInv_of_reachable hp r
  have si := startInv_of_reachable hp r
  refine ⟨si.calls, ?_, ?_, pi.frames, si.order⟩
  · rcases pi.phase with ⟨_, _, e, _⟩ | ⟨i, e0, _, e, _⟩ | ⟨_, _, _, e, _⟩ | ⟨_, _, _, e, _⟩ |
      ⟨_, _, e, _⟩
    · have := hi.nonneg
      omega
    · have := (hi.spawning i h (some gen) e0).2
      omega
    · omega
    · omega
    · omega
  · intro hne
    rcases pi.phase with ⟨_, e, _⟩ | ⟨i, _, e, _⟩ | ⟨_, _, _, e, _⟩ | ⟨_, _, _, e, _⟩ |
      ⟨_, _, e, _⟩
    · exact absurd e hne
    · exact absurd e hne
    · exact e
    · exact e
    · exact e
/-! ## Concrete runs -/

theorem New_examplePool (n : Nat) (h : n ≤ 1000) :
    New Nat exampleLimits (n : Int) = Except.ok (examplePool n) := by
  unfold New
  rw [makeChan_fits (by omega) (by simp [exampleLimits]),
    makeChan_fits (Int.ofNat_nonneg n) (by simp only [exampleLimits]; omega)]
  simp [examplePool]

theorem twoWorkers_run : run twoWorkersSched twoWorkersInit = some twoWorkersFinal :=
  (Option.some_get _).symm

theorem bailOut_run : run bailOutSched bailOutInit = some bailOutFinal :=
  (Option.some_get _).symm

theorem lateSubmit_run : run lateSubmitSched lateSubmitInit = some lateSubmitFinal :=
  (Option.some_get _).symm

theorem noWorker_run : run noWorkerSched noWorkerInit = some noWorkerFinal :=
  (Option.some_get _).symm

theorem noWorkerMid_run :
    run [Actor.caller, Actor.caller, Actor.caller] noWorkerInit = some noWorkerMid :=
  (Option.some_get _).symm

theorem submitOnlyMid_run :
    run [Actor.caller, Actor.caller] submitOnlyInit = some submitOnlyMid :=
  (Option.some_get _).symm

/-- C1 at a concrete run: two workers, tasks 10, 20, 30, a handler that is
always true. The second worker handles 20 before the first handles 10; at the
return all three tasks were handled once and both acknowledgments are true. -/
theorem all_tasks_handled_witness :
    twoWorkersFinal.returned ∧ twoWorkersFinal.invoked = [20, 10, 30] ∧
      (twoWorkersFinal.pool.tasks.buf = [] ∧ twoWorkersFinal.submitted = [10, 20, 30] ∧
        twoWorkersFinal.invoked.Perm [10, 20, 30] ∧ twoWorkersFinal.invoked.length = 3 ∧
        (∀ w ∈ twoWorkersFinal.workers, w.isDone = true) ∧
        twoWorkersFinal.acks = [true, true] ∧ twoWorkersFinal.collected = [true, true]) :=
  ⟨by decide, by decide,
    (all_tasks_handled (New_examplePool 2 (by decide)) (by decide) (fun _ _ => rfl) twoWorkers_run).2.1
      (by decide)⟩

/-- C3 at a concrete run: one worker, no task; at the return one
acknowledgment was produced and collected. -/
theorem WaitForCompletion_never_early_witness :
    lateSubmitFinal.returned ∧
      (Event.closed ∈ lateSubmitFinal.events ∧ lateSubmitFinal.pool.tasks.closed = true ∧
        (lateSubmitFinal.collected.length : Int) = 1 ∧
        (1 : Int) ≤ (lateSubmitFinal.acks.length : Int)) :=
  ⟨by decide,
    (WaitForCompletion_never_early (New_examplePool 1 (by decide)) lateSubmit_run).2 (by decide)⟩

/-- C5 at a concrete run: one worker, tasks 1, 2, 3 and a handler that is
false on 2 only. The handler is invoked on 1 then 2, an initial part of the
submissions, and never on 3, which stays in the queue. -/
theorem single_worker_fifo_witness :
    bailOutFinal.returned ∧ bailOutFinal.invoked = [1, 2] ∧
      bailOutFinal.pool.tasks.buf = [3] ∧ bailOutFinal.acks = [false] ∧
      (bailOutFinal.submitted <+: [1, 2, 3] ∧ bailOutFinal.invoked <+: bailOutFinal.submitted) :=
  ⟨by decide, by decide, by decide, by decide,
    (single_worker_fifo (New_examplePool 1 (by decide)) bailOut_run).1,
    (single_worker_fifo (New_examplePool 1 (by decide)) bailOut_run).2.1⟩

/-- C7 at a concrete run: one worker, `Start`, `WaitForCompletion`, then
`Submit(7)` panics. -/
theorem Submit_after_close_panics_witness :
    Event.closed ∈ lateSubmitFinal.events ∧ lateSubmitFinal.script = [Call.submit 7] ∧
      step Actor.caller lateSubmitFinal
        = some { lateSubmitFinal with panic := some Panic.sendOnClosedChannel } :=
  ⟨by decide, rfl,
    (Submit_after_close_panics (New_examplePool 1 (by decide)) lateSubmit_run (by decide) 7 []).2.1
      rfl rfl rfl⟩

/-- C8 at a concrete run: two submissions on a fresh pool without workers sit
in the queue in order, and a third `Submit` appends at the tail. -/
theorem tasks_bounded_fifo_witness :
    submitOnlyMid.pool.tasks.buf = [1, 2] ∧ submitOnlyMid.pool.tasks.cap = 10000 ∧
      submitOnlyMid.pool.tasks.buf.length ≤ 10000 ∧
      ∃ s1, Submit submitOnlyMid 3 [] = some s1 ∧ s1.pool.tasks.buf = [1, 2, 3] :=
  ⟨rfl,
    ((tasks_bounded_fifo (κ := Nat) (New_examplePool 1 (by decide))).2 _ _ _ submitOnlyMid_run).1,
    ((tasks_bounded_fifo (κ := Nat) (New_examplePool 1 (by decide))).2 _ _ _ submitOnlyMid_run).2.1,
    ⟨_, (((tasks_bounded_fifo (κ := Nat) (New_examplePool 1 (by decide))).2 _ _ _ submitOnlyMid_run).2.2
      3 [] rfl).2.1 (by decide), rfl⟩⟩

/-- C10 fails on a submitted task: count 0, `Start`, `Submit(5)`, then
`WaitForCompletion` returns with the task still in the queue. -/
theorem WaitForCompletion_zero_workers_returns :
    New Nat exampleLimits 0 = Except.ok (examplePool 0) ∧
      run noWorkerSched noWorkerInit = some noWorkerFinal ∧
      noWorkerFinal.submitted = [5] ∧ noWorkerFinal.returned ∧ noWorkerFinal.script = [] ∧
      noWorkerFinal.pool.tasks.buf = [5] ∧ noWorkerFinal.invoked = [] :=
  ⟨New_examplePool 0 (by decide), noWorker_run, by decide, by decide, rfl, by decide, by decide⟩

/-- C10 as amended, at a concrete run: count 0, one task submitted; the two
next actions of the caller are the close and the return of
`WaitForCompletion`, and the task is still in the queue. -/
theorem WaitForCompletion_zero_workers_witness :
    noWorkerMid.submitted = [5] ∧
      ∃ s1 s2, step Actor.caller noWorkerMid = some s1 ∧ step Actor.caller s1 = some s2 ∧
        s2.returned ∧ s2.script = [] ∧ s2.pc = CPc.idle ∧ s2.panic = none ∧
        s2.pool.tasks.buf = noWorkerMid.submitted ∧ s2.invoked = [] ∧ s2.acks = [] :=
  ⟨by decide,
    (WaitForCompletion_zero_workers (New_examplePool 0 (by decide)) noWorkerMid_run).2.2.2.2
      [] rfl rfl rfl rfl⟩

theorem bailOut_worker : bailOutFinal.workers[0]? = some bailOutWorker := by
  rfl

/-- C2 at Scenario B: one worker, tasks 1, 2, 3, handler false exactly on 2:
invocations on 1 then 2, never on 3, acknowledgment false, both for `worker`
run alone and for the worker of the pool. -/
theorem worker_stops_on_false_witness :
    worker 0 [1, 2, 3] none falseOnTwo
      = [WEvent.invoked none 1 true, WEvent.invoked none 2 false, WEvent.acknowledged false] ∧
    bailOutFinal.trace 0
      = [WEvent.invoked none 1 true, WEvent.invoked none 2 false, WEvent.acknowledged false] ∧
    bailOutFinal.receivedBy 0 = [1, 2] ∧ bailOutFinal.pool.tasks.buf = [3] ∧
    ((bailOutWorker.pc = WPc.ack ∨ bailOutWorker.pc = WPc.done) ∧
      bailOutWorker.success = false ∧
      ∃ rc1, bailOutFinal.receivedBy 0 = rc1 ++ [2] ∧
        bailOutFinal.trace 0 = rc1.map (fun u => WEvent.invoked none u true)
          ++ WEvent.invoked none 2 false
            :: (if bailOutWorker.isDone then [WEvent.acknowledged false] else [])) :=
  ⟨(worker_stops_on_false 0 none falseOnTwo [1] 2 [3] (by decide) (by decide)
      bailOut_run bailOut_worker).1,
    by decide, by decide, by decide,
    (worker_stops_on_false 0 none falseOnTwo [1] 2 [3] (by decide) (by decide)
      bailOut_run bailOut_worker).2 none 2 (by decide)⟩

/-- C4 at Scenario B: the worker's whole run ends with its one
acknowledgment, false, and is `worker` on the two tasks it received. -/
theorem worker_acknowledges_once_witness :
    (worker 0 [1, 2, 3] none falseOnTwo).filterMap WEvent.ackValue = [false] ∧
    (worker 0 [1, 2, 3] none falseOnTwo).getLast? = some (WEvent.acknowledged false) ∧
    (bailOutWorker.isDone = true →
      bailOutFinal.trace 0 = worker 0 (bailOutFinal.receivedBy 0) none falseOnTwo) :=
  ⟨(worker_acknowledges_once 0 [1, 2, 3] none falseOnTwo bailOut_run bailOut_worker).2.1,
    (worker_acknowledges_once 0 [1, 2, 3] none falseOnTwo bailOut_run bailOut_worker).2.2.1,
    (worker_acknowledges_once 0 [1, 2, 3] none falseOnTwo bailOut_run bailOut_worker).2.2.2.2.2.2.1⟩

theorem context_run : run contextSched contextInit = some contextFinal :=
  (Option.some_get _).symm

/-- C6 at Scenario C: three workers and the generator `id * 10`. The
generator is called on 0, 1, 2 in that order, and the handler invocations of
workers 0, 1, 2 get the contexts 0, 10, 20. -/
theorem generator_once_per_worker_witness :
    contextFinal.returned ∧
    contextFinal.events.filterMap Event.generatedCall
      = [(0, some 0), (1, some 10), (2, some 20)] ∧
    contextFinal.events.filterMap
        (fun e => match e with
          | Event.worker k _ (WEvent.invoked c t _) => some (k, c, t)
          | _ => none)
      = [(1, some 10, 3), (2, some 20, 1), (0, some 0, 2)] ∧
    (contextFinal.events.filterMap Event.generatedCall
      = (List.range contextFinal.workers.length).map (fun k => ((k : Int), timesTen k)) ∧
      (contextFinal.workers.length : Int) ≤ 3) :=
  ⟨by decide, by decide, by decide,
    (generator_once_per_worker (New_examplePool 3 (by decide)) context_run).1,
    (generator_once_per_worker (New_examplePool 3 (by decide)) context_run).2.1⟩
end Workers
